import Mathlib

/-!
# Verification of the Elastic Hash Table (`src/elastic_hash_table.c`)

This file contains a shallow embedding of the C implementation of the
elastic hash table and proofs about it.

Modelling conventions:

* Byte buffers (keys and values) are lists of natural numbers; a C string
  is identified with its byte content up to, but not including, the first
  NUL byte (`strcmp`-equality is equality of those prefixes).  The stored
  `value_len` field of a slot always equals the length of the stored value
  buffer, so it is represented by the length of the value list.
* 64-bit machine arithmetic is modelled on `Nat` with explicit reduction
  `% 2 ^ 64` at every operation where wrap-around can occur.
* The probe budget `probe_budget` in the C source is computed with `double`
  arithmetic (`1.0 - used / capacity`, `log`, `floor`).  Floating point is
  not reproduced bit-for-bit; instead the entire development is
  parametrised by a budget function `B : Nat → Nat → Nat` mapping
  `(count + tombstones, capacity)` to the probe budget, exactly as the
  budget is consumed by `find_key` and `insert_owned`.  Theorems that need
  a property of the budget assume `BudgetMono B`: the budget does not
  shrink when `count + tombstones` grows at fixed capacity.  This is the
  defining monotonicity of the C formula (`ε` falls, `3 + 3·ln(1/ε)²`
  rises, and the clamp `min · capacity` is monotone).
* Heap allocation always succeeds in the model.  Fallible operations
  return `Option`; `none` corresponds to resource exhaustion (the `fuel`
  argument bounds the rebuild recursion of `insert_owned`).
* `num_levels` is represented by the length of the level list; the C code
  keeps the two in sync at all times.
-/

set_option maxHeartbeats 1000000

namespace EHT

/-- Tri-state slot, modelling the C `Slot` struct together with its
`SlotState`.  Key and value payloads exist exactly in the `occupied`
state, matching the C invariant that a slot's `key`/`value` pointers are
non-NULL iff its state is `SLOT_OCCUPIED`. -/
inductive Slot : Type
  | empty : Slot
  | occupied (key : List Nat) (value : List Nat) : Slot
  | tombstone : Slot
deriving DecidableEq, Inhabited, Repr

/-- Model of the C `SubArray` struct: one level of the table. -/
structure SubArray : Type where
  level : Nat
  capacity : Nat
  count : Nat
  tombstones : Nat
  slots : List Slot
deriving DecidableEq, Inhabited, Repr

/-- Model of the C `ElasticHashTable` struct.  The `max_load` and
`tombstone_ratio` fields are the constants 0.90 and 0.15 in every table
the C code ever creates; they are modelled by the fixed threshold
functions `load_threshold` and `tomb_threshold` below rather than by
fields. -/
structure ElasticHashTable : Type where
  total_capacity : Nat
  count : Nat
  min_level_size : Nat
  levels : List SubArray
deriving DecidableEq, Inhabited, Repr

/-- Content of a C string: its bytes up to (excluding) the first NUL. -/
def cstr (k : List Nat) : List Nat := k.takeWhile (fun b => b ≠ 0)

/-- Model of `strcmp(a, b) == 0`: the byte sequences agree up to the
first NUL. -/
def strEqb (a b : List Nat) : Bool := decide (cstr a = cstr b)

/-- One step of the FNV-1a loop body: `h ^= byte; h *= prime`, in 64-bit
wrap-around arithmetic. -/
def fnvStep (h b : Nat) : Nat := ((h ^^^ b) * 0x100000001b3) % 2 ^ 64

/-- Model of `fnv1a_salted`: 64-bit FNV-1a over the key bytes up to the
first NUL, with the offset basis XORed by `salt` before any byte is
consumed. -/
def fnv1a_salted (key : List Nat) (salt : Nat) : Nat :=
  (cstr key).foldl fnvStep ((0xcbf29ce484222325 ^^^ salt) % 2 ^ 64)

/-- First salt of `dual_hash`: `level * 0x9E3779B97F4A7C15 + 0xA1` in
64-bit wrap-around arithmetic. -/
def salt1 (level : Nat) : Nat := (level * 0x9E3779B97F4A7C15 + 0xA1) % 2 ^ 64

/-- Second salt of `dual_hash`: `level * 0x517CC1B727220A95 + 0xB2` in
64-bit wrap-around arithmetic. -/
def salt2 (level : Nat) : Nat := (level * 0x517CC1B727220A95 + 0xB2) % 2 ^ 64

/-- Model of `dual_hash`: the pair `(h1, h2)` with `h2` forced odd by
`| 1`. -/
def dual_hash (key : List Nat) (level : Nat) : Nat × Nat :=
  (fnv1a_salted key (salt1 level), fnv1a_salted key (salt2 level) ||| 1)

/-- Model of `probe_idx`: `(h1 + attempt * h2) % capacity`, where the sum
and product are 64-bit machine operations (hence the inner `% 2 ^ 64`). -/
def probe_idx (h1 h2 attempt capacity : Nat) : Nat :=
  ((h1 + attempt * h2) % 2 ^ 64) % capacity

/-- Probe position of `key` in level `sub` at attempt `a`. -/
def probePos (key : List Nat) (sub : SubArray) (a : Nat) : Nat :=
  probe_idx (dual_hash key sub.level).1 (dual_hash key sub.level).2 a sub.capacity

/-- The budget a level presents to `find_key`/`insert_owned`, given a
budget function `B` (see the header comment): applied to
`count + tombstones` and `capacity`, exactly as `probe_budget` reads its
inputs. -/
def budgetOf (B : Nat → Nat → Nat) (sub : SubArray) : Nat :=
  B (sub.count + sub.tombstones) sub.capacity

/-- Monotonicity of a budget function in the used-slot count: the property
of the C `probe_budget` formula that the correctness proofs rely on. -/
def BudgetMono (B : Nat → Nat → Nat) : Prop :=
  ∀ cap u1 u2, u1 ≤ u2 → B u1 cap ≤ B u2 cap

/-- Exhaustive-scan budget function (`B used cap = cap`); this is the
value the C `probe_budget` takes on a saturated level and is a convenient
concrete instance of `BudgetMono` for closed-form evaluations. -/
def fullBudget : Nat → Nat → Nat := fun _ cap => cap

/-- Update element `i` of a list in place (no-op when out of range). -/
def listModify {α : Type} (l : List α) (i : Nat) (f : α → α) : List α :=
  match l[i]? with
  | some a => l.set i (f a)
  | none => l

/-- Probe loop of `find_key` inside one level: `n` remaining attempts,
`a` the current attempt number.  Returns the slot index of the first
occupied slot whose key `strcmp`-equals the query; stops the level scan
at the first empty slot; skips tombstones and occupied slots with other
keys. -/
def find_slot (slots : List Slot) (cap : Nat) (q : List Nat) (h1 h2 : Nat) :
    Nat → Nat → Option Nat
  | 0, _ => none
  | n + 1, a =>
    match slots.getD (probe_idx h1 h2 a cap) .empty with
    | .occupied k _ =>
      if strEqb k q then some (probe_idx h1 h2 a cap)
      else find_slot slots cap q h1 h2 n (a + 1)
    | .empty => none
    | .tombstone => find_slot slots cap q h1 h2 n (a + 1)

/-- Scan of one level by `find_key`: a level with `count == 0` is skipped
outright; otherwise the probe loop runs with the level's budget. -/
def scan_level (B : Nat → Nat → Nat) (sub : SubArray) (q : List Nat) :
    Option Nat :=
  if sub.count = 0 then none
  else find_slot sub.slots sub.capacity q
    (dual_hash q sub.level).1 (dual_hash q sub.level).2
    (budgetOf B sub) 0

/-- Level cascade of `find_key`: levels in order, carrying the current
level index. -/
def find_levels (B : Nat → Nat → Nat) (q : List Nat) :
    List SubArray → Nat → Option (Nat × Nat)
  | [], _ => none
  | sub :: rest, li =>
    match scan_level B sub q with
    | some i => some (li, i)
    | none => find_levels B q rest (li + 1)

/-- Model of `find_key`: the `(-1, 0)` sentinel of the C `FindResult` is
represented by `none`, a hit by `some (level_idx, slot_idx)`. -/
def find_key (B : Nat → Nat → Nat) (t : ElasticHashTable) (q : List Nat) :
    Option (Nat × Nat) :=
  find_levels B q t.levels 0

/-- Probe loop of `insert_owned` inside one level: returns the attempt
number and slot index of the first empty-or-tombstone slot within the
budget. -/
def place_slot (slots : List Slot) (cap : Nat) (h1 h2 : Nat) :
    Nat → Nat → Option (Nat × Nat)
  | 0, _ => none
  | n + 1, a =>
    match slots.getD (probe_idx h1 h2 a cap) .empty with
    | .occupied _ _ => place_slot slots cap h1 h2 n (a + 1)
    | _ => some (a, probe_idx h1 h2 a cap)

/-- The level update `insert_owned` performs when it claims slot `i`:
install the owned key and value, set the state to occupied, increment the
level `count`, and decrement `tombstones` when the claimed slot was a
tombstone. -/
def placed_level (sub : SubArray) (k v : List Nat) (i : Nat) : SubArray :=
  { sub with
    slots := sub.slots.set i (.occupied k v),
    count := sub.count + 1,
    tombstones :=
      if sub.slots.getD i .empty = .tombstone then sub.tombstones - 1
      else sub.tombstones }

/-- Level cascade of `insert_owned`: claim the first free slot (empty or
tombstone) found within some level's budget, update that level via
`placed_level`, and leave every other level untouched.  Returns `none`
when every level exhausts its budget. -/
def place_levels (B : Nat → Nat → Nat) (k v : List Nat) :
    List SubArray → Option (List SubArray)
  | [] => none
  | sub :: rest =>
    match place_slot sub.slots sub.capacity
        (dual_hash k sub.level).1 (dual_hash k sub.level).2
        (budgetOf B sub) 0 with
    | some (_, i) => some (placed_level sub k v i :: rest)
    | none => (place_levels B k v rest).map (sub :: ·)

/-- Single (non-rebuilding) pass of `insert_owned` over the level list;
on success the table `count` is incremented. -/
def cascade_place (B : Nat → Nat → Nat) (t : ElasticHashTable)
    (k v : List Nat) : Option ElasticHashTable :=
  (place_levels B k v t.levels).map fun ls =>
    { t with levels := ls, count := t.count + 1 }

/-- Payload of a slot: its `(key, value)` pair when occupied. -/
def slotEntry : Slot → Option (List Nat × List Nat)
  | .occupied k v => some (k, v)
  | _ => none

/-- Step 1 of `rebuild`: collect the `(key, value)` payload of every
occupied slot, levels in order, slots in array order (the value length
travels with the value list). -/
def extract_entries (t : ElasticHashTable) : List (List Nat × List Nat) :=
  (t.levels.map fun sub => sub.slots.filterMap slotEntry).flatten

/-- Fuel-indexed helper for `levelSizes`.  `fuel` bounds the number of
halving iterations; every iteration strictly decreases the remainder, so
`fuel = r` always suffices and `levelSizes` instantiates it that way
(structural recursion on `fuel` keeps the function kernel-reducible). -/
def levelSizesAux (m : Nat) : Nat → Nat → List Nat
  | 0, r => [r]
  | fuel + 1, r =>
    if 2 * m < r ∧ 2 ≤ r then r / 2 :: levelSizesAux m fuel (r - r / 2)
    else [r]

/-- Level capacities produced by `build_levels` for minimum level size `m`
and total capacity `r`: halve while the remainder exceeds `2 * m`, then
emit the remainder as the final level.  The C code computes this sequence
in two identical passes (one to count levels, one to fill them); both
passes perform the same update `remaining -= remaining / 2`, so a single
loop is the faithful translation.  The conjunct `2 ≤ r` in the guard is
redundant whenever `1 ≤ m` (then `2 * m < r` already forces `3 ≤ r`) —
in particular for the only value the C code ever uses, `m = 16` — and
merely rules out the degenerate parameter `m = 0`, `r = 1`, on which the
C loop would not terminate. -/
def levelSizes (m r : Nat) : List Nat := levelSizesAux m r r

/-- Model of `build_levels`: one freshly zeroed (`calloc`) level per entry
of `levelSizes`, with its index stored in the `level` field. -/
def build_levels (m C : Nat) : List SubArray :=
  (levelSizes m C).enum.map fun p =>
    { level := p.1, capacity := p.2, count := 0, tombstones := 0,
      slots := List.replicate p.2 .empty }

/-- Model of `(size_t)(total_capacity * max_load)` with
`max_load = 0.90`: equals `⌊9·C/10⌋` (the `double` rounding of the
product never crosses an integer for realistic capacities, because
`0.9·C` is always a multiple of `0.1` and the representation error of
`0.90` is below `10⁻¹⁶·C`). -/
def load_threshold (C : Nat) : Nat := 9 * C / 10

/-- Model of `(size_t)(total_capacity * tombstone_ratio)` with
`tombstone_ratio = 0.15`: equals `⌊3·C/20⌋` (same reasoning as
`load_threshold`). -/
def tomb_threshold (C : Nat) : Nat := 3 * C / 20

/-- Sum of the per-level `tombstones` counters, as computed by the
tombstone guard loop of `eht_insert`. -/
def total_tombstones (t : ElasticHashTable) : Nat :=
  (t.levels.map (fun sub => sub.tombstones)).sum

/-- Reinsertion loop of `rebuild` (step 4): run the given owned-pointer
insertion (`insert_owned` with the current fuel) on each extracted entry
in extraction order. -/
def reinsert_all
    (ins : ElasticHashTable → List Nat → List Nat → Option ElasticHashTable) :
    List (List Nat × List Nat) → ElasticHashTable → Option ElasticHashTable
  | [], t => some t
  | (k, v) :: es, t =>
    match ins t k v with
    | some t' => reinsert_all ins es t'
    | none => none

/-- Model of `insert_owned`: try the level cascade; if every level
exhausts its budget, rebuild to twice the total capacity (extract every
occupied slot's payload, lay out fresh levels, reinsert) and retry with
the same owned buffers.  `fuel` bounds the rebuild recursion (the C code
recurses unboundedly; every claim below is conditioned on the call
returning).  The body of `rebuild` is inlined in the `none` branch so
that the recursion is structural on `fuel`; the wrapper `rebuild` below
restates it, and `insert_owned_succ` recovers the C call structure
verbatim. -/
def insert_owned (B : Nat → Nat → Nat) :
    Nat → ElasticHashTable → List Nat → List Nat →
    Option ElasticHashTable
  | 0, _, _, _ => none
  | fuel + 1, t, k, v =>
    match cascade_place B t k v with
    | some t' => some t'
    | none =>
      match reinsert_all (insert_owned B fuel) (extract_entries t)
          { t with
            total_capacity := t.total_capacity * 2
            count := 0
            levels := build_levels t.min_level_size
              (t.total_capacity * 2) } with
      | some t' => insert_owned B fuel t' k v
      | none => none

/-- Model of `rebuild`: extract every occupied slot's payload, destroy the
levels, lay out fresh levels for `new_capacity` (resetting the table
`count` to zero and `total_capacity` to `new_capacity`), then reinsert
every extracted entry through the owned-pointer cascade. -/
def rebuild (B : Nat → Nat → Nat) (fuel : Nat) (t : ElasticHashTable)
    (new_capacity : Nat) : Option ElasticHashTable :=
  reinsert_all (insert_owned B fuel) (extract_entries t)
    { t with total_capacity := new_capacity, count := 0,
             levels := build_levels t.min_level_size new_capacity }

/-- Value overwrite performed by the update-in-place branch of
`eht_insert`: free the old value bytes and store a copy of the new ones,
touching nothing else.  (Freeing is invisible in the model; the slot's
value list is replaced and its length field follows it.) -/
def update_value (t : ElasticHashTable) (li i : Nat) (v : List Nat) :
    ElasticHashTable :=
  { t with levels := listModify t.levels li fun sub =>
      { sub with slots := listModify sub.slots i fun s =>
          match s with
          | .occupied k _ => .occupied k v
          | s => s } }

/-- Model of `eht_insert`.  Success (`return 0`) is `some` of the new
table; `none` covers the failure paths (in the model, only fuel
exhaustion).  The key and value bytes are copied before the owned-pointer
cascade; the copied key is the content of the C string, `cstr key`. -/
def eht_insert (B : Nat → Nat → Nat) (fuel : Nat) (t : ElasticHashTable)
    (key value : List Nat) : Option ElasticHashTable :=
  match find_key B t key with
  | some (li, i) => some (update_value t li i value)
  | none =>
    match (if load_threshold t.total_capacity ≤ t.count
           then rebuild B fuel t (t.total_capacity * 2) else some t) with
    | none => none
    | some t1 =>
      match (if tomb_threshold t1.total_capacity ≤ total_tombstones t1
             then rebuild B fuel t1 t1.total_capacity else some t1) with
      | none => none
      | some t2 => insert_owned B fuel t2 (cstr key) value

/-- Model of `eht_get`: `some value` on a hit (the C function also
returns `value_len`, which is the length of the returned list), `none`
when `find_key` reports the sentinel. -/
def eht_get (B : Nat → Nat → Nat) (t : ElasticHashTable) (key : List Nat) :
    Option (List Nat) :=
  match find_key B t key with
  | none => none
  | some (li, i) =>
    match (t.levels.getD li default).slots.getD i .empty with
    | .occupied _ v => some v
    | _ => none

/-- Model of `eht_delete`: returns the C `int` result together with the
table after the call. -/
def eht_delete (B : Nat → Nat → Nat) (t : ElasticHashTable)
    (key : List Nat) : Nat × ElasticHashTable :=
  match find_key B t key with
  | none => (0, t)
  | some (li, i) =>
    (1, { t with
      count := t.count - 1,
      levels := listModify t.levels li fun sub =>
        { sub with
          slots := sub.slots.set i .tombstone,
          count := sub.count - 1,
          tombstones := sub.tombstones + 1 } })

/-- Model of `eht_contains`. -/
def eht_contains (B : Nat → Nat → Nat) (t : ElasticHashTable)
    (key : List Nat) : Nat :=
  match find_key B t key with
  | some _ => 1
  | none => 0

/-- Model of `eht_len`. -/
def eht_len (t : ElasticHashTable) : Nat := t.count

/-- Model of `eht_capacity`. -/
def eht_capacity (t : ElasticHashTable) : Nat := t.total_capacity

/-- Model of `eht_num_levels`. -/
def eht_num_levels (t : ElasticHashTable) : Nat := t.levels.length

/-- Model of `eht_create`: clamp the requested capacity to at least 64,
fix `min_level_size = 16` (and the 0.90 / 0.15 tunables, which the model
bakes into `load_threshold` / `tomb_threshold`), and build the levels. -/
def eht_create (c : Nat) : ElasticHashTable :=
  { total_capacity := if c < 64 then 64 else c
    count := 0
    min_level_size := 16
    levels := build_levels 16 (if c < 64 then 64 else c) }

/-- Boolean test for the `SLOT_OCCUPIED` state. -/
def Slot.isOccB : Slot → Bool
  | .occupied _ _ => true
  | _ => false

/-- Boolean test for the `SLOT_TOMBSTONE` state. -/
def Slot.isTombB : Slot → Bool
  | .tombstone => true
  | _ => false

/-- Number of occupied slots in a slot array. -/
def numOcc (slots : List Slot) : Nat := slots.countP Slot.isOccB

/-- Number of tombstoned slots in a slot array. -/
def numTomb (slots : List Slot) : Nat := slots.countP Slot.isTombB

/-- The slot stored at level index `li`, slot index `i` (empty when either
index is out of range). -/
def slotAt (t : ElasticHashTable) (li i : Nat) : Slot :=
  (t.levels.getD li default).slots.getD i .empty

/-- Structural health of one level: the slot array has length `capacity`,
the capacity is positive, and the two counters agree with the slot
array. -/
def LevelOK (sub : SubArray) : Prop :=
  sub.slots.length = sub.capacity ∧ 1 ≤ sub.capacity ∧
  sub.count = numOcc sub.slots ∧ sub.tombstones = numTomb sub.slots

/-- Structural health of a table: every level is healthy, the table
`count` is the sum of the level counts, `total_capacity` is the sum of
the level capacities, and the total capacity is positive (every table
the C code builds has total capacity at least 64). -/
def StructWF (t : ElasticHashTable) : Prop :=
  (∀ sub ∈ t.levels, LevelOK sub) ∧
  t.count = (t.levels.map (fun sub => sub.count)).sum ∧
  t.total_capacity = (t.levels.map (fun sub => sub.capacity)).sum ∧
  1 ≤ t.total_capacity

/-- Slot `i` of level `sub` can be reached by the probe sequence of key
`k` within the level's current budget without crossing an empty slot:
this is what makes an occupied slot visible to `find_key`. -/
def Findable (B : Nat → Nat → Nat) (sub : SubArray) (k : List Nat)
    (i : Nat) : Prop :=
  ∃ a, a < budgetOf B sub ∧ probePos k sub a = i ∧
    ∀ b, b < a → sub.slots.getD (probePos k sub b) .empty ≠ .empty

/-- Key-level health of a table under budget function `B`: every occupied
slot holds a NUL-free key copy, is findable in its level, and is the only
slot in the whole table holding that key. -/
def KeyWF (B : Nat → Nat → Nat) (t : ElasticHashTable) : Prop :=
  ∀ li i k v, slotAt t li i = .occupied k v →
    (∀ b ∈ k, b ≠ 0) ∧ Findable B (t.levels.getD li default) k i ∧
    ∀ lj j k2 v2, slotAt t lj j = .occupied k2 v2 → cstr k2 = cstr k →
      lj = li ∧ j = i

/-- Full well-formedness: structural plus key-level health.  Every table
reachable from `eht_create` by the public operations satisfies it. -/
def WF (B : Nat → Nat → Nat) (t : ElasticHashTable) : Prop :=
  StructWF t ∧ KeyWF B t

/-- Boolean presence check: some occupied slot's key `strcmp`-equals
`q`. -/
def hasKeyB (t : ElasticHashTable) (q : List Nat) : Bool :=
  t.levels.any fun sub => sub.slots.any fun s =>
    match s with
    | .occupied k _ => strEqb k q
    | _ => false

/-- Capacity bounds of the level layout, phrased on the list of level
capacities: every non-final level has capacity at least `min_level_size`
and the final level has capacity at most `2 * min_level_size`. -/
def LayoutOK (t : ElasticHashTable) : Prop :=
  (∀ i, i + 1 < t.levels.length →
    t.min_level_size ≤ (t.levels.map (fun sub => sub.capacity)).getD i 0) ∧
  (t.levels.map (fun sub => sub.capacity)).getLast?.getD 0 ≤
    2 * t.min_level_size

/-- Tables reachable from `eht_create` by the mutating operations (the
read-only operations `eht_get`, `eht_contains`, `eht_len` and friends do
not change the table, so they contribute no transitions).  The two
rebuild steps are the two targets the C code ever passes to `rebuild`:
`total_capacity * 2` (growth) and `total_capacity` (tombstone
compaction). -/
inductive Reachable (B : Nat → Nat → Nat) : ElasticHashTable → Prop
  | create (c : Nat) : Reachable B (eht_create c)
  | insert {t t' : ElasticHashTable} (fuel : Nat) (key value : List Nat) :
      Reachable B t → eht_insert B fuel t key value = some t' →
      Reachable B t'
  | delete {t : ElasticHashTable} (key : List Nat) :
      Reachable B t → Reachable B (eht_delete B t key).2
  | rebuildGrow {t t' : ElasticHashTable} (fuel : Nat) :
      Reachable B t → rebuild B fuel t (t.total_capacity * 2) = some t' →
      Reachable B t'
  | rebuildCompact {t t' : ElasticHashTable} (fuel : Nat) :
      Reachable B t → rebuild B fuel t t.total_capacity = some t' →
      Reachable B t'

/-- Spec-side formulation (section 4.4 of the specification) of the probe
stop condition at attempt `a`: the probe terminates on an occupied slot
whose key matches the query (a hit) or on an empty slot (a miss);
tombstones and occupied slots with other keys are probe-transparent. -/
def specStop (sub : SubArray) (q : List Nat) (a : Nat) : Bool :=
  match sub.slots.getD (probePos q sub a) .empty with
  | .occupied k _ => strEqb k q
  | .empty => true
  | .tombstone => false

/-- Spec-side single-level scan: the first attempt in `[0, budget)` that
stops the probe decides the level (hit: the slot index; empty: give up on
this level); if the budget is exhausted without a stop, the level yields
nothing. -/
def scan_spec (B : Nat → Nat → Nat) (sub : SubArray) (q : List Nat) :
    Option Nat :=
  match (List.range (budgetOf B sub)).find? (specStop sub q) with
  | some a =>
    match sub.slots.getD (probePos q sub a) .empty with
    | .occupied _ _ => some (probePos q sub a)
    | _ => none
  | none => none

/-- Spec-side formulation of the find cascade: visit the levels in index
order and return the first level's hit, with its level index; the
not-found sentinel is `none`. -/
def find_spec (B : Nat → Nat → Nat) (t : ElasticHashTable)
    (q : List Nat) : Option (Nat × Nat) :=
  t.levels.enum.findSome? fun p => (scan_spec B p.2 q).map (fun i => (p.1, i))

/-- Spec-side formulation of salted FNV-1a (section 4.1 of the
specification): start from the accumulator, consume bytes up to the
first NUL, each byte XORed in and then multiplied by the FNV prime in
64-bit arithmetic. -/
def fnv1aSpec (h : Nat) : List Nat → Nat
  | [] => h
  | b :: bs => if b = 0 then h else fnv1aSpec (fnvStep h b) bs

/-- One-level table of capacity 1 holding the single entry `[2] ↦ [9]`:
a minimal saturated concrete table, used to exercise the load guard. -/
def t1s : ElasticHashTable :=
  ⟨1, 1, 16, [⟨0, 1, 1, 0, [Slot.occupied [2] [9]]⟩]⟩

/-- Concrete table after inserting `[1] ↦ [5]` into `eht_create 64`. -/
def insA : ElasticHashTable :=
  (eht_insert fullBudget 2 (eht_create 64) [1] [5]).getD (eht_create 64)

/-- Concrete table after further inserting `[1] ↦ [6]` into `insA`. -/
def insB : ElasticHashTable :=
  (eht_insert fullBudget 2 insA [1] [6]).getD (eht_create 64)

/-! ## Basic facts about keys, hashing and list surgery -/

/-- The C call structure of `insert_owned` at positive fuel: cascade,
then on failure `rebuild` to twice the capacity and retry. -/
theorem insert_owned_succ (B : Nat → Nat → Nat) (fuel : Nat)
    (t : ElasticHashTable) (k v : List Nat) :
    insert_owned B (fuel + 1) t k v =
      match cascade_place B t k v with
      | some t' => some t'
      | none =>
        match rebuild B fuel t (t.total_capacity * 2) with
        | some t' => insert_owned B fuel t' k v
        | none => none := rfl


theorem cstr_cstr (k : List Nat) : cstr (cstr k) = cstr k := by
  unfold cstr
  apply List.takeWhile_eq_self_iff.mpr
  intro x hx
  exact @List.mem_takeWhile_imp Nat (fun b => decide (b ≠ 0)) k x hx

theorem cstr_ne_zero {k : List Nat} {b : Nat} (h : b ∈ cstr k) : b ≠ 0 := by
  simpa using List.mem_takeWhile_imp h

theorem cstr_of_clean {k : List Nat} (h : ∀ b ∈ k, b ≠ 0) : cstr k = k :=
  List.takeWhile_eq_self_iff.mpr (by intro x hx; simpa using h x hx)

theorem strEqb_iff {a b : List Nat} : strEqb a b = true ↔ cstr a = cstr b := by
  simp [strEqb]

theorem fnv1a_congr {k1 k2 : List Nat} (h : cstr k1 = cstr k2) (s : Nat) :
    fnv1a_salted k1 s = fnv1a_salted k2 s := by
  simp [fnv1a_salted, h]

theorem dual_hash_congr {k1 k2 : List Nat} (h : cstr k1 = cstr k2) (L : Nat) :
    dual_hash k1 L = dual_hash k2 L := by
  simp [dual_hash, fnv1a_congr h]

theorem probePos_congr {k1 k2 : List Nat} (h : cstr k1 = cstr k2)
    (sub : SubArray) (a : Nat) : probePos k1 sub a = probePos k2 sub a := by
  simp [probePos, dual_hash_congr h]

theorem lor_one_mod_two (x : Nat) : (x ||| 1) % 2 = 1 := by
  have h := Nat.testBit_lor x 1 0
  rw [Nat.testBit_zero, Nat.testBit_zero, Nat.testBit_zero] at h
  rcases Nat.mod_two_eq_zero_or_one (x ||| 1) with h2 | h2
  · rw [h2] at h
    simp at h
  · exact h2

theorem getD_set_self {α : Type} {l : List α} {i : Nat} (h : i < l.length)
    (a d : α) : (l.set i a).getD i d = a := by
  rw [List.getD_eq_getElem?_getD, List.getElem?_set_self h]; rfl

theorem getD_set_ne {α : Type} (l : List α) {i j : Nat} (hij : i ≠ j)
    (a d : α) : (l.set i a).getD j d = l.getD j d := by
  rw [List.getD_eq_getElem?_getD, List.getElem?_set_ne hij,
    ← List.getD_eq_getElem?_getD]

theorem getD_replicate_empty (n i : Nat) :
    (List.replicate n Slot.empty).getD i .empty = .empty := by
  rw [List.getD_eq_getElem?_getD, List.getElem?_replicate]
  split <;> rfl

theorem listModify_length {α : Type} (l : List α) (i : Nat) (f : α → α) :
    (listModify l i f).length = l.length := by
  unfold listModify
  cases h : l[i]? <;> simp

theorem listModify_getElem?_self {α : Type} {l : List α} {i : Nat} {a : α}
    (f : α → α) (h : l[i]? = some a) : (listModify l i f)[i]? = some (f a) := by
  unfold listModify
  rw [h]
  rcases List.getElem?_eq_some.mp h with ⟨hlt, _⟩
  exact List.getElem?_set_self hlt

theorem listModify_getElem?_ne {α : Type} (l : List α) {i j : Nat}
    (f : α → α) (hij : i ≠ j) : (listModify l i f)[j]? = l[j]? := by
  unfold listModify
  cases h : l[i]? with
  | none => rfl
  | some a => exact List.getElem?_set_ne hij

theorem listModify_getD_ne {α : Type} (l : List α) {i j : Nat}
    (f : α → α) (hij : i ≠ j) (d : α) :
    (listModify l i f).getD j d = l.getD j d := by
  rw [List.getD_eq_getElem?_getD, listModify_getElem?_ne l f hij,
    ← List.getD_eq_getElem?_getD]

theorem listModify_getD_self {α : Type} {l : List α} {i : Nat} {a : α}
    (f : α → α) (d : α) (h : l[i]? = some a) :
    (listModify l i f).getD i d = f a := by
  rw [List.getD_eq_getElem?_getD, listModify_getElem?_self f h]; rfl

/-! ## Facts about the level layout -/

theorem levelSizesAux_congr (m : Nat) :
    ∀ fuel1 fuel2 r, r ≤ fuel1 → r ≤ fuel2 →
      levelSizesAux m fuel1 r = levelSizesAux m fuel2 r := by
  intro fuel1
  induction fuel1 with
  | zero =>
    intro fuel2 r h1 h2
    have hr : r = 0 := by omega
    subst hr
    cases fuel2 with
    | zero => rfl
    | succ f2 =>
      show _ = if 2 * m < 0 ∧ 2 ≤ 0 then _ else _
      rw [if_neg (by omega)]
      rfl
  | succ f1 ih =>
    intro fuel2 r h1 h2
    by_cases hg : 2 * m < r ∧ 2 ≤ r
    · cases fuel2 with
      | zero => omega
      | succ f2 =>
        show (if 2 * m < r ∧ 2 ≤ r then _ else _) =
          (if 2 * m < r ∧ 2 ≤ r then _ else _)
        rw [if_pos hg, if_pos hg]
        congr 1
        exact ih f2 (r - r / 2) (by omega) (by omega)
    · cases fuel2 with
      | zero =>
        have hr : r = 0 := by omega
        subst hr
        show (if 2 * m < 0 ∧ 2 ≤ 0 then _ else _) = _
        rw [if_neg (by omega)]
        rfl
      | succ f2 =>
        show (if 2 * m < r ∧ 2 ≤ r then _ else _) =
          (if 2 * m < r ∧ 2 ≤ r then _ else _)
        rw [if_neg hg, if_neg hg]

theorem levelSizes_step {m r : Nat} (h1 : 2 * m < r) (h2 : 2 ≤ r) :
    levelSizes m r = r / 2 :: levelSizes m (r - r / 2) := by
  unfold levelSizes
  obtain ⟨r', rfl⟩ : ∃ r', r = r' + 1 := ⟨r - 1, by omega⟩
  show (if 2 * m < r' + 1 ∧ 2 ≤ r' + 1 then _ else _) = _
  rw [if_pos ⟨h1, h2⟩]
  congr 1
  exact levelSizesAux_congr m r' _ _ (by omega) (by omega)

theorem levelSizes_base {m r : Nat} (h : ¬(2 * m < r ∧ 2 ≤ r)) :
    levelSizes m r = [r] := by
  unfold levelSizes
  cases r with
  | zero => rfl
  | succ r' =>
    show (if 2 * m < r' + 1 ∧ 2 ≤ r' + 1 then _ else _) = _
    rw [if_neg h]

theorem levelSizes_sum (m : Nat) : ∀ r, (levelSizes m r).sum = r := by
  intro r
  induction r using Nat.strong_induction_on with
  | _ r ih =>
    by_cases h : 2 * m < r ∧ 2 ≤ r
    · rw [levelSizes_step h.1 h.2, List.sum_cons, ih _ (by omega)]
      omega
    · rw [levelSizes_base h]
      simp

theorem levelSizes_ne_nil (m r : Nat) : levelSizes m r ≠ [] := by
  by_cases h : 2 * m < r ∧ 2 ≤ r
  · rw [levelSizes_step h.1 h.2]; simp
  · rw [levelSizes_base h]; simp

theorem levelSizes_pos (m : Nat) :
    ∀ r, 1 ≤ r → ∀ x ∈ levelSizes m r, 1 ≤ x := by
  intro r
  induction r using Nat.strong_induction_on with
  | _ r ih =>
    intro hr x hx
    by_cases h : 2 * m < r ∧ 2 ≤ r
    · rw [levelSizes_step h.1 h.2] at hx
      rcases List.mem_cons.mp hx with rfl | hx
      · omega
      · exact ih _ (by omega) (by omega) _ hx
    · rw [levelSizes_base h] at hx
      simp at hx
      omega

theorem levelSizes_nonfinal (m : Nat) :
    ∀ r i, i + 1 < (levelSizes m r).length →
      m ≤ (levelSizes m r).getD i 0 := by
  intro r
  induction r using Nat.strong_induction_on with
  | _ r ih =>
    intro i hi
    by_cases h : 2 * m < r ∧ 2 ≤ r
    · rw [levelSizes_step h.1 h.2] at hi ⊢
      match i with
      | 0 =>
        simp only [List.getD_cons_zero]
        omega
      | i + 1 =>
        simp only [List.getD_cons_succ]
        have hi' : i + 1 < (levelSizes m (r - r / 2)).length := by
          simp only [List.length_cons] at hi
          omega
        exact ih _ (by omega) i hi'
    · rw [levelSizes_base h] at hi
      simp at hi

theorem levelSizes_last (m : Nat) (hm : 1 ≤ m) :
    ∀ r, (levelSizes m r).getLast?.getD 0 ≤ 2 * m := by
  intro r
  induction r using Nat.strong_induction_on with
  | _ r ih =>
    by_cases h : 2 * m < r ∧ 2 ≤ r
    · rw [levelSizes_step h.1 h.2]
      rcases List.exists_cons_of_ne_nil (levelSizes_ne_nil m (r - r / 2))
        with ⟨y, ys, hy⟩
      rw [hy, List.getLast?_cons_cons, ← hy]
      exact ih _ (by omega)
    · rw [levelSizes_base h]
      simp only [List.getLast?_singleton, Option.getD_some]
      omega

theorem build_levels_caps (m C : Nat) :
    (build_levels m C).map (fun sub => sub.capacity) = levelSizes m C := by
  unfold build_levels
  rw [List.map_map]
  have h : ((fun sub : SubArray => sub.capacity) ∘ fun p : Nat × Nat =>
      SubArray.mk p.1 p.2 0 0 (List.replicate p.2 .empty)) = Prod.snd := rfl
  rw [h, List.enum_map_snd]

theorem numOcc_replicate (n : Nat) :
    numOcc (List.replicate n .empty) = 0 := by
  simp [numOcc, List.countP_replicate, Slot.isOccB]

theorem numTomb_replicate (n : Nat) :
    numTomb (List.replicate n .empty) = 0 := by
  simp [numTomb, List.countP_replicate, Slot.isTombB]

theorem getD_of_getElem? {α : Type} {l : List α} {i : Nat} {a : α} (d : α)
    (h : l[i]? = some a) : l.getD i d = a := by
  rw [List.getD_eq_getElem?_getD, h]; rfl

/-! ## Soundness and completeness of the find cascade -/

theorem find_slot_sound {slots : List Slot} {cap : Nat} {q : List Nat}
    {h1 h2 : Nat} :
    ∀ {n a i}, find_slot slots cap q h1 h2 n a = some i →
      ∃ k v, slots.getD i .empty = .occupied k v ∧ strEqb k q = true := by
  intro n
  induction n with
  | zero => intro a i h; simp [find_slot] at h
  | succ n ih =>
    intro a i h
    rw [find_slot] at h
    split at h
    · next k v heq =>
      split at h
      · next hs =>
        injection h with h'
        subst h'
        exact ⟨k, v, heq, hs⟩
      · exact ih h
    · exact absurd h (by simp)
    · exact ih h

theorem find_slot_isSome {slots : List Slot} {cap : Nat} {q : List Nat}
    {h1 h2 : Nat} {a : Nat} {k v : List Nat}
    (hocc : slots.getD (probe_idx h1 h2 a cap) .empty = .occupied k v)
    (hmatch : strEqb k q = true) :
    ∀ n a0, a0 ≤ a → a < a0 + n →
      (∀ b, a0 ≤ b → b < a →
        slots.getD (probe_idx h1 h2 b cap) .empty ≠ .empty) →
      (find_slot slots cap q h1 h2 n a0).isSome = true := by
  intro n
  induction n with
  | zero => intro a0 hle hlt _; omega
  | succ n ih =>
    intro a0 hle hlt hne
    rw [find_slot]
    rcases Nat.eq_or_lt_of_le hle with heq | hlt0
    · subst heq
      rw [hocc]
      simp [hmatch]
    · split
      · split
        · simp
        · exact ih (a0 + 1) (by omega) (by omega)
            (fun b hb1 hb2 => hne b (by omega) hb2)
      · next heq2 => exact absurd heq2 (hne a0 (by omega) hlt0)
      · exact ih (a0 + 1) (by omega) (by omega)
          (fun b hb1 hb2 => hne b (by omega) hb2)

theorem scan_level_sound {B : Nat → Nat → Nat} {sub : SubArray}
    {q : List Nat} {i : Nat} (h : scan_level B sub q = some i) :
    ∃ k v, sub.slots.getD i .empty = .occupied k v ∧ strEqb k q = true := by
  unfold scan_level at h
  split at h
  · exact absurd h (by simp)
  · exact find_slot_sound h

theorem scan_level_none {B : Nat → Nat → Nat} {sub : SubArray}
    {q : List Nat}
    (h : ∀ i k v, sub.slots.getD i .empty = .occupied k v →
      strEqb k q = false) :
    scan_level B sub q = none := by
  cases hs : scan_level B sub q with
  | none => rfl
  | some i =>
    obtain ⟨k, v, hocc, hsq⟩ := scan_level_sound hs
    rw [h i k v hocc] at hsq
    simp at hsq

theorem getD_occupied_lt {slots : List Slot} {i : Nat} {k v : List Nat}
    (h : slots.getD i .empty = .occupied k v) : i < slots.length := by
  by_contra hlt
  push_neg at hlt
  rw [List.getD_eq_default _ _ hlt] at h
  simp at h

theorem numOcc_pos {slots : List Slot} {i : Nat} {k v : List Nat}
    (h : slots.getD i .empty = .occupied k v) : 1 ≤ numOcc slots := by
  have hi : i < slots.length := getD_occupied_lt h
  rw [List.getD_eq_getElem _ _ hi] at h
  have hmem : slots[i] ∈ slots := List.getElem_mem hi
  rw [h] at hmem
  have hpos : 0 < numOcc slots :=
    List.countP_pos_iff.mpr ⟨_, hmem, by simp [Slot.isOccB]⟩
  omega

theorem slotAt_lt {t : ElasticHashTable} {li i : Nat} {k v : List Nat}
    (h : slotAt t li i = .occupied k v) :
    li < t.levels.length ∧ i < (t.levels.getD li default).slots.length := by
  refine ⟨?_, getD_occupied_lt h⟩
  by_contra hlt
  push_neg at hlt
  unfold slotAt at h
  rw [List.getD_eq_default _ _ hlt] at h
  have hd : (default : SubArray).slots = [] := rfl
  rw [hd, List.getD_nil] at h
  simp at h

theorem hasKeyB_iff {t : ElasticHashTable} {q : List Nat} :
    hasKeyB t q = true ↔
      ∃ li i k v, slotAt t li i = .occupied k v ∧ strEqb k q = true := by
  unfold hasKeyB
  rw [List.any_eq_true]
  constructor
  · rintro ⟨sub, hsub, hs⟩
    rw [List.any_eq_true] at hs
    obtain ⟨s, hsl, hmatch⟩ := hs
    cases s with
    | empty => simp at hmatch
    | tombstone => simp at hmatch
    | occupied k v =>
      obtain ⟨li, hli⟩ := List.mem_iff_getElem?.mp hsub
      obtain ⟨i, hi⟩ := List.mem_iff_getElem?.mp hsl
      refine ⟨li, i, k, v, ?_, hmatch⟩
      unfold slotAt
      rw [getD_of_getElem? default hli, getD_of_getElem? .empty hi]
  · rintro ⟨li, i, k, v, hocc, hs⟩
    obtain ⟨hli, hi⟩ := slotAt_lt hocc
    refine ⟨t.levels.getD li default, ?_, ?_⟩
    · rw [List.getD_eq_getElem _ _ hli]
      exact List.getElem_mem hli
    · rw [List.any_eq_true]
      refine ⟨.occupied k v, ?_, hs⟩
      have h2 : (t.levels.getD li default).slots.getD i .empty =
          .occupied k v := hocc
      rw [List.getD_eq_getElem _ _ hi] at h2
      rw [← h2]
      exact List.getElem_mem hi

theorem find_levels_sound {B : Nat → Nat → Nat} {q : List Nat} :
    ∀ {ls : List SubArray} {li0 li i},
      find_levels B q ls li0 = some (li, i) →
      ∃ d, li = li0 + d ∧ d < ls.length ∧
        scan_level B (ls.getD d default) q = some i := by
  intro ls
  induction ls with
  | nil => intro li0 li i h; simp [find_levels] at h
  | cons sub rest ih =>
    intro li0 li i h
    rw [find_levels] at h
    cases hs : scan_level B sub q with
    | some j =>
      rw [hs] at h
      simp only [Option.some.injEq, Prod.mk.injEq] at h
      obtain ⟨rfl, rfl⟩ := h
      exact ⟨0, by omega, by simp, by simpa [List.getD_cons_zero] using hs⟩
    | none =>
      rw [hs] at h
      obtain ⟨d, hd1, hd2, hd3⟩ := ih h
      refine ⟨d + 1, by omega, by simp only [List.length_cons]; omega, ?_⟩
      simpa [List.getD_cons_succ] using hd3

theorem find_levels_complete {B : Nat → Nat → Nat} {q : List Nat} :
    ∀ {ls : List SubArray} {d i} (li0 : Nat),
      d < ls.length →
      (∀ d', d' < d → scan_level B (ls.getD d' default) q = none) →
      scan_level B (ls.getD d default) q = some i →
      find_levels B q ls li0 = some (li0 + d, i) := by
  intro ls
  induction ls with
  | nil => intro d i li0 hd; simp at hd
  | cons sub rest ih =>
    intro d i li0 hd hnone hsome
    rw [find_levels]
    cases d with
    | zero =>
      rw [List.getD_cons_zero] at hsome
      rw [hsome]
      simp
    | succ d =>
      have h0 : scan_level B sub q = none := by
        have h1 := hnone 0 (by omega)
        simpa [List.getD_cons_zero] using h1
      rw [h0]
      have hd' : d < rest.length := by
        simp only [List.length_cons] at hd
        omega
      have hrec := ih (li0 + 1) hd'
        (fun d' hd2 => by
          simpa [List.getD_cons_succ] using hnone (d' + 1) (by omega))
        (by simpa [List.getD_cons_succ] using hsome)
      rw [hrec]
      have harith : li0 + 1 + d = li0 + (d + 1) := by omega
      rw [harith]

theorem find_key_sound {B : Nat → Nat → Nat} {t : ElasticHashTable}
    {q : List Nat} {li i : Nat} (h : find_key B t q = some (li, i)) :
    ∃ k v, slotAt t li i = .occupied k v ∧ strEqb k q = true := by
  unfold find_key at h
  obtain ⟨d, hd1, hd2, hd3⟩ := find_levels_sound h
  have hdli : d = li := by omega
  subst hdli
  exact scan_level_sound hd3

theorem find_key_none_of_absent {B : Nat → Nat → Nat}
    {t : ElasticHashTable} {q : List Nat} (h : hasKeyB t q = false) :
    find_key B t q = none := by
  cases hf : find_key B t q with
  | none => rfl
  | some p =>
    obtain ⟨li, i⟩ := p
    obtain ⟨k, v, hocc, hs⟩ := find_key_sound hf
    have htrue : hasKeyB t q = true := hasKeyB_iff.mpr ⟨li, i, k, v, hocc, hs⟩
    rw [h] at htrue
    simp at htrue

theorem find_key_complete {B : Nat → Nat → Nat} {t : ElasticHashTable}
    {q k v : List Nat} {li i : Nat} (hwf : WF B t)
    (hocc : slotAt t li i = .occupied k v) (hq : cstr q = cstr k) :
    find_key B t q = some (li, i) := by
  obtain ⟨hstruct, hkey⟩ := hwf
  obtain ⟨hclean, hfind, huniq⟩ := hkey li i k v hocc
  obtain ⟨hli, hi⟩ := slotAt_lt hocc
  have hearlier : ∀ d', d' < li →
      scan_level B (t.levels.getD d' default) q = none := by
    intro d' hd'
    apply scan_level_none
    intro j k2 v2 hocc2
    cases hb : strEqb k2 q with
    | false => rfl
    | true =>
      have hc : cstr k2 = cstr k := by
        rw [← hq]
        exact strEqb_iff.mp hb
      have hdj := huniq d' j k2 v2 hocc2 hc
      omega
  have hsubmem : t.levels.getD li default ∈ t.levels := by
    rw [List.getD_eq_getElem _ _ hli]
    exact List.getElem_mem hli
  have hlev : LevelOK (t.levels.getD li default) := hstruct.1 _ hsubmem
  have hcount : ¬ (t.levels.getD li default).count = 0 := by
    have hocc' : (t.levels.getD li default).slots.getD i .empty =
        .occupied k v := hocc
    have hp := numOcc_pos hocc'
    have hc := hlev.2.2.1
    omega
  have hscan : ∃ j, scan_level B (t.levels.getD li default) q = some j := by
    unfold scan_level
    rw [if_neg hcount]
    obtain ⟨a, ha, hpos, hpre⟩ := hfind
    have hposq : probePos q (t.levels.getD li default) a = i := by
      rw [probePos_congr hq]
      exact hpos
    have hoccq : (t.levels.getD li default).slots.getD
        (probe_idx (dual_hash q (t.levels.getD li default).level).1
          (dual_hash q (t.levels.getD li default).level).2 a
          (t.levels.getD li default).capacity) .empty = .occupied k v := by
      show (t.levels.getD li default).slots.getD
        (probePos q (t.levels.getD li default) a) .empty = _
      rw [hposq]
      exact hocc
    have hmq : strEqb k q = true := strEqb_iff.mpr hq.symm
    have hsome := find_slot_isSome hoccq hmq
      (budgetOf B (t.levels.getD li default)) 0 (by omega) (by omega)
      (by
        intro b hb1 hb2
        have hpq : probePos q (t.levels.getD li default) b =
            probePos k (t.levels.getD li default) b := probePos_congr hq _ _
        show (t.levels.getD li default).slots.getD
          (probePos q (t.levels.getD li default) b) .empty ≠ .empty
        rw [hpq]
        exact hpre b hb2)
    exact Option.isSome_iff_exists.mp hsome
  obtain ⟨j, hj⟩ := hscan
  obtain ⟨k2, v2, hocc2, hs2⟩ := scan_level_sound hj
  have hc2 : cstr k2 = cstr k := by
    rw [← hq]
    exact strEqb_iff.mp hs2
  have hji := huniq li j k2 v2 hocc2 hc2
  have hjeq : j = i := hji.2
  subst hjeq
  unfold find_key
  have hres := find_levels_complete 0 hli hearlier hj
  simpa using hres

/-! ## List surgery helpers -/

theorem set_getElem_eq_self {α : Type} :
    ∀ (l : List α) (d : Nat) (hd : d < l.length), l.set d l[d] = l := by
  intro l
  induction l with
  | nil => intro d hd; simp at hd
  | cons y ys ih =>
    intro d hd
    cases d with
    | zero => simp
    | succ d =>
      simp only [List.getElem_cons_succ, List.set_cons_succ]
      rw [ih d (by simpa using hd)]

theorem map_set_eq {α β : Type} (g : α → β) {ls : List α} {d : Nat} {x : α}
    (hd : d < ls.length) (hx : g x = g ls[d]) :
    (ls.set d x).map g = ls.map g := by
  rw [List.map_set, hx]
  have hd2 : d < (ls.map g).length := by simpa using hd
  have hm : (ls.map g)[d] = g ls[d] := by simp
  rw [← hm]
  exact set_getElem_eq_self _ _ hd2

theorem map_sum_set {α : Type} (g : α → Nat) :
    ∀ (ls : List α) (d : Nat) (x : α), d < ls.length →
      (((ls.set d x).map g).sum + g (ls.getD d x) = (ls.map g).sum + g x) := by
  intro ls
  induction ls with
  | nil => intro d x hd; simp at hd
  | cons y ys ih =>
    intro d x hd
    cases d with
    | zero =>
      simp only [List.set_cons_zero, List.map_cons, List.sum_cons,
        List.getD_cons_zero]
      omega
    | succ d =>
      simp only [List.set_cons_succ, List.map_cons, List.sum_cons,
        List.getD_cons_succ]
      have hrec := ih d x (by simpa using hd)
      omega

theorem filterMap_set_perm {α β : Type} (f : α → Option β) {b : β} :
    ∀ {l : List α} {i : Nat} {a : α}, i < l.length →
      f (l.getD i a) = none → f a = some b →
      ((l.set i a).filterMap f).Perm (b :: l.filterMap f) := by
  intro l
  induction l with
  | nil => intro i a hi; simp at hi
  | cons x xs ih =>
    intro i a hi hnone hb
    cases i with
    | zero =>
      rw [List.getD_cons_zero] at hnone
      simp only [List.set_cons_zero, List.filterMap_cons, hnone, hb]
      exact List.Perm.refl _
    | succ i =>
      rw [List.getD_cons_succ] at hnone
      simp only [List.set_cons_succ, List.filterMap_cons]
      cases hfx : f x with
      | none =>
        exact ih (by simpa using hi) hnone hb
      | some c =>
        have h1 := (ih (by simpa using hi) hnone hb).cons c
        exact h1.trans (List.Perm.swap b c _)

theorem flatten_map_set_perm {α β : Type} (f : α → List β) {b : β} :
    ∀ {ls : List α} {d : Nat} {x : α}, d < ls.length →
      (f x).Perm (b :: f (ls.getD d x)) →
      ((((ls.set d x).map f).flatten)).Perm (b :: (ls.map f).flatten) := by
  intro ls
  induction ls with
  | nil => intro d x hd; simp at hd
  | cons y ys ih =>
    intro d x hd hperm
    cases d with
    | zero =>
      rw [List.getD_cons_zero] at hperm
      simp only [List.set_cons_zero, List.map_cons, List.flatten_cons]
      have h1 := hperm.append_right ((ys.map f).flatten)
      simpa using h1
    | succ d =>
      rw [List.getD_cons_succ] at hperm
      simp only [List.set_cons_succ, List.map_cons, List.flatten_cons]
      have h1 := (ih (by simpa using hd) hperm).append_left (f y)
      exact h1.trans List.perm_middle

/-! ## Specification of the placement cascade -/

theorem place_slot_sound {slots : List Slot} {cap : Nat} {h1 h2 : Nat} :
    ∀ {n a0 a i}, place_slot slots cap h1 h2 n a0 = some (a, i) →
      a0 ≤ a ∧ a < a0 + n ∧ i = probe_idx h1 h2 a cap ∧
      (slots.getD i .empty = .empty ∨ slots.getD i .empty = .tombstone) ∧
      ∀ b, a0 ≤ b → b < a →
        Slot.isOccB (slots.getD (probe_idx h1 h2 b cap) .empty) = true := by
  intro n
  induction n with
  | zero => intro a0 a i h; simp [place_slot] at h
  | succ n ih =>
    intro a0 a i h
    rw [place_slot] at h
    split at h
    · next k v heq =>
      obtain ⟨h1', h2', h3', h4', h5'⟩ := ih h
      refine ⟨by omega, by omega, h3', h4', ?_⟩
      intro b hb1 hb2
      rcases Nat.eq_or_lt_of_le hb1 with rfl | hlt
      · rw [heq]
        rfl
      · exact h5' b (by omega) hb2
    · next heq =>
      simp only [Option.some.injEq, Prod.mk.injEq] at h
      obtain ⟨rfl, rfl⟩ := h
      refine ⟨Nat.le_refl _, by omega, rfl, ?_,
        fun b hb1 hb2 => absurd hb2 (by omega)⟩
      cases hslot : slots.getD (probe_idx h1 h2 a0 cap) Slot.empty with
      | empty => exact Or.inl rfl
      | occupied k2 v2 => exact (heq k2 v2 hslot).elim
      | tombstone => exact Or.inr rfl

theorem place_levels_spec {B : Nat → Nat → Nat} {k v : List Nat} :
    ∀ {ls ls' : List SubArray}, place_levels B k v ls = some ls' →
      ∃ d a i, d < ls.length ∧
        a < budgetOf B (ls.getD d default) ∧
        i = probePos k (ls.getD d default) a ∧
        ((ls.getD d default).slots.getD i .empty = .empty ∨
         (ls.getD d default).slots.getD i .empty = .tombstone) ∧
        (∀ b, b < a → Slot.isOccB
          ((ls.getD d default).slots.getD
            (probePos k (ls.getD d default) b) .empty) = true) ∧
        ls' = ls.set d (placed_level (ls.getD d default) k v i) := by
  intro ls
  induction ls with
  | nil => intro ls' h; simp [place_levels] at h
  | cons sub rest ih =>
    intro ls' h
    rw [place_levels] at h
    split at h
    · next a i hps =>
      obtain ⟨ha0, ha, hi, hfree, hpre⟩ := place_slot_sound hps
      injection h with h'
      refine ⟨0, a, i, by simp, ?_, ?_, ?_, ?_, ?_⟩
      · simpa [List.getD_cons_zero] using ha
      · simpa [List.getD_cons_zero, probePos] using hi
      · simpa [List.getD_cons_zero] using hfree
      · intro b hb
        have hp := hpre b (by omega) hb
        simpa [List.getD_cons_zero, probePos] using hp
      · rw [← h']
        simp [List.getD_cons_zero]
    · next hps =>
      cases hrec : place_levels B k v rest with
      | none =>
        rw [hrec] at h
        simp at h
      | some ls'' =>
        rw [hrec] at h
        simp at h
        obtain ⟨d, a, i, hd, ha, hi, hfree, hpre, hset⟩ := ih hrec
        refine ⟨d + 1, a, i, by simp only [List.length_cons]; omega, ?_, ?_,
          ?_, ?_, ?_⟩
        · simpa [List.getD_cons_succ] using ha
        · simpa [List.getD_cons_succ] using hi
        · simpa [List.getD_cons_succ] using hfree
        · intro b hb
          have hp := hpre b hb
          simpa [List.getD_cons_succ] using hp
        · rw [← h, hset]
          simp [List.getD_cons_succ, List.set_cons_succ]

theorem probePos_lt {sub : SubArray} (hcap : 1 ≤ sub.capacity)
    (k : List Nat) (a : Nat) : probePos k sub a < sub.capacity := by
  unfold probePos probe_idx
  exact Nat.mod_lt _ (by omega)

theorem placed_level_ok {sub : SubArray} (k v : List Nat) {i : Nat}
    (hlev : LevelOK sub) (hi : i < sub.slots.length)
    (hfree : sub.slots.getD i .empty = .empty ∨
      sub.slots.getD i .empty = .tombstone) :
    LevelOK (placed_level sub k v i) := by
  obtain ⟨hlen, hcap, hcount, htomb⟩ := hlev
  have hold : sub.slots[i] = sub.slots.getD i .empty :=
    (List.getD_eq_getElem _ _ hi).symm
  have hoccB : Slot.isOccB sub.slots[i] = false := by
    rw [hold]
    rcases hfree with hf | hf <;> rw [hf] <;> rfl
  have hocc_new :
      numOcc (sub.slots.set i (.occupied k v)) = numOcc sub.slots + 1 := by
    unfold numOcc
    rw [List.countP_set _ _ _ _ hi, hoccB]
    simp [Slot.isOccB]
  refine ⟨?_, ?_, ?_, ?_⟩
  · simp [placed_level, List.length_set, hlen]
  · simpa [placed_level] using hcap
  · show sub.count + 1 = numOcc (sub.slots.set i (.occupied k v))
    rw [hocc_new, hcount]
  · show (if sub.slots.getD i .empty = .tombstone then sub.tombstones - 1
      else sub.tombstones) = numTomb (sub.slots.set i (.occupied k v))
    unfold numTomb
    rw [List.countP_set _ _ _ _ hi]
    rcases hfree with hf | hf
    · have hTf : Slot.isTombB sub.slots[i] = false := by
        rw [hold, hf]; rfl
      rw [hf, hTf]
      simp only [Slot.isTombB, reduceIte, Nat.sub_zero]
      rw [htomb]
      rfl
    · have hTt : Slot.isTombB sub.slots[i] = true := by
        rw [hold, hf]; rfl
      rw [hf, hTt]
      simp only [Slot.isTombB, reduceIte]
      rw [htomb]
      rfl

theorem placed_level_entries {sub : SubArray} (k v : List Nat) {i : Nat}
    (hi : i < sub.slots.length)
    (hfree : sub.slots.getD i .empty = .empty ∨
      sub.slots.getD i .empty = .tombstone) :
    ((placed_level sub k v i).slots.filterMap slotEntry).Perm
      ((k, v) :: sub.slots.filterMap slotEntry) := by
  apply filterMap_set_perm slotEntry hi
  · have hdd : sub.slots.getD i (Slot.occupied k v) =
        sub.slots.getD i .empty := by
      rw [List.getD_eq_getElem _ _ hi, List.getD_eq_getElem _ _ hi]
    rw [hdd]
    rcases hfree with hf | hf <;> rw [hf] <;> rfl
  · rfl

theorem cascade_place_struct {B : Nat → Nat → Nat} {t t' : ElasticHashTable}
    {k v : List Nat} (hwf : StructWF t)
    (h : cascade_place B t k v = some t') :
    StructWF t' ∧ (extract_entries t').Perm ((k, v) :: extract_entries t) ∧
    t'.count = t.count + 1 ∧ t'.total_capacity = t.total_capacity ∧
    t'.min_level_size = t.min_level_size ∧
    t'.levels.map (fun sub => sub.capacity) =
      t.levels.map (fun sub => sub.capacity) := by
  unfold cascade_place at h
  cases hpl : place_levels B k v t.levels with
  | none => rw [hpl] at h; simp at h
  | some ls' =>
    rw [hpl] at h
    simp only [Option.map_some', Option.some.injEq] at h
    obtain ⟨d, a, i, hd, ha, hi, hfree, hpre, hset⟩ := place_levels_spec hpl
    subst hset
    subst h
    have hsubmem : t.levels.getD d default ∈ t.levels := by
      rw [List.getD_eq_getElem _ _ hd]
      exact List.getElem_mem hd
    have hlev : LevelOK (t.levels.getD d default) := hwf.1 _ hsubmem
    have hilt : i < (t.levels.getD d default).slots.length := by
      rw [hi, hlev.1]
      exact probePos_lt hlev.2.1 k a
    have hgetElem : t.levels[d] = t.levels.getD d default :=
      (List.getD_eq_getElem _ _ hd).symm
    have hplaced := placed_level_ok k v hlev hilt hfree
    have hperm1 := placed_level_entries k v hilt hfree
    refine ⟨⟨?_, ?_, ?_, ?_⟩, ?_, rfl, rfl, rfl, ?_⟩
    · intro sub2 hmem
      obtain ⟨j, hj⟩ := List.mem_iff_getElem?.mp hmem
      rcases eq_or_ne d j with rfl | hne
      · rw [List.getElem?_set_self hd] at hj
        injection hj with hj'
        rw [← hj']
        exact hplaced
      · rw [List.getElem?_set_ne hne] at hj
        refine hwf.1 sub2 ?_
        exact List.mem_iff_getElem?.mpr ⟨j, hj⟩
    · show t.count + 1 = (List.map (fun sub => sub.count)
        (t.levels.set d (placed_level (t.levels.getD d default) k v i))).sum
      have hms := map_sum_set (fun sub => sub.count) t.levels d
        (placed_level (t.levels.getD d default) k v i) hd
      have hdd : t.levels.getD d (placed_level (t.levels.getD d default) k v i)
          = t.levels.getD d default := by
        rw [List.getD_eq_getElem _ _ hd, List.getD_eq_getElem _ _ hd]
      rw [hdd] at hms
      simp only at hms
      have hplc : (placed_level (t.levels.getD d default) k v i).count =
          (t.levels.getD d default).count + 1 := rfl
      rw [hplc] at hms
      have hcnt := hwf.2.1
      omega
    · show t.total_capacity = (List.map (fun sub => sub.capacity)
        (t.levels.set d (placed_level (t.levels.getD d default) k v i))).sum
      have hcapx : (fun sub : SubArray => sub.capacity)
          (placed_level (t.levels.getD d default) k v i) =
          (fun sub : SubArray => sub.capacity) t.levels[d] := by
        rw [hgetElem]
        rfl
      rw [map_set_eq (fun sub => sub.capacity) hd hcapx]
      exact hwf.2.2.1
    · exact hwf.2.2.2
    · show (extract_entries { t with
        levels := t.levels.set d (placed_level (t.levels.getD d default) k v i),
        count := t.count + 1 }).Perm ((k, v) :: extract_entries t)
      unfold extract_entries
      apply flatten_map_set_perm (fun sub => sub.slots.filterMap slotEntry) hd
      have hdd : t.levels.getD d (placed_level (t.levels.getD d default) k v i)
          = t.levels.getD d default := by
        rw [List.getD_eq_getElem _ _ hd, List.getD_eq_getElem _ _ hd]
      rw [hdd]
      exact hperm1
    · show List.map (fun sub => sub.capacity)
        (t.levels.set d (placed_level (t.levels.getD d default) k v i)) =
        List.map (fun sub => sub.capacity) t.levels
      have hcapx : (fun sub : SubArray => sub.capacity)
          (placed_level (t.levels.getD d default) k v i) =
          (fun sub : SubArray => sub.capacity) t.levels[d] := by
        rw [hgetElem]
        rfl
      exact map_set_eq (fun sub => sub.capacity) hd hcapx

/-! ## Fresh tables built by `build_levels` -/

theorem build_levels_length (m C : Nat) :
    (build_levels m C).length = (levelSizes m C).length := by
  unfold build_levels
  rw [List.length_map, List.enum_length]

theorem build_levels_mem_ok {m C : Nat} (hC : 1 ≤ C) :
    ∀ sub ∈ build_levels m C, LevelOK sub := by
  intro sub hsub
  unfold build_levels at hsub
  rcases List.mem_map.mp hsub with ⟨p, hp, rfl⟩
  have hsz : p.2 ∈ levelSizes m C := by
    have hmem := List.mem_map_of_mem Prod.snd hp
    rwa [List.enum_map_snd] at hmem
  have hpos : 1 ≤ p.2 := levelSizes_pos m C hC _ hsz
  refine ⟨?_, ?_, ?_, ?_⟩
  · exact List.length_replicate _ _
  · exact hpos
  · exact (numOcc_replicate _).symm
  · exact (numTomb_replicate _).symm

theorem build_levels_counts (m C : Nat) :
    ∀ sub ∈ build_levels m C, sub.count = 0 ∧ sub.tombstones = 0 := by
  intro sub hsub
  unfold build_levels at hsub
  rcases List.mem_map.mp hsub with ⟨p, hp, rfl⟩
  exact ⟨rfl, rfl⟩

theorem fresh_table_struct (t : ElasticHashTable) {c : Nat} (hc : 1 ≤ c) :
    StructWF { t with
      total_capacity := c
      count := 0
      levels := build_levels t.min_level_size c } := by
  refine ⟨build_levels_mem_ok hc, ?_, ?_, hc⟩
  · symm
    apply List.sum_eq_zero
    intro x hx
    rcases List.mem_map.mp hx with ⟨sub, hsub, rfl⟩
    exact (build_levels_counts _ _ sub hsub).1
  · show c = _
    rw [build_levels_caps, levelSizes_sum]

theorem extract_entries_fresh (t : ElasticHashTable) (c : Nat) :
    extract_entries { t with
      total_capacity := c
      count := 0
      levels := build_levels t.min_level_size c } = [] := by
  unfold extract_entries
  apply List.flatten_eq_nil_iff.mpr
  intro l hl
  rcases List.mem_map.mp hl with ⟨sub, hsub, rfl⟩
  unfold build_levels at hsub
  rcases List.mem_map.mp hsub with ⟨p, hp, rfl⟩
  apply List.filterMap_eq_nil_iff.mpr
  intro s hs
  rcases List.mem_replicate.mp hs with ⟨-, rfl⟩
  rfl

theorem extract_entries_length {t : ElasticHashTable} (hwf : StructWF t) :
    (extract_entries t).length = t.count := by
  unfold extract_entries
  rw [List.length_flatten, List.map_map, hwf.2.1]
  have hmapeq : t.levels.map
      (List.length ∘ fun sub => sub.slots.filterMap slotEntry) =
      t.levels.map (fun sub => sub.count) := by
    apply List.map_congr_left
    intro sub hsub
    have hlev := hwf.1 sub hsub
    show (sub.slots.filterMap slotEntry).length = sub.count
    rw [List.length_filterMap_eq_countP, hlev.2.2.1]
    unfold numOcc
    apply List.countP_congr
    intro s hs
    cases s <;> simp [slotEntry, Slot.isOccB]
  rw [hmapeq]

theorem LayoutOK_fresh (t : ElasticHashTable) {c : Nat}
    (hm : 1 ≤ t.min_level_size) :
    LayoutOK { t with
      total_capacity := c
      count := 0
      levels := build_levels t.min_level_size c } := by
  constructor
  · intro i hi
    show t.min_level_size ≤ _
    rw [build_levels_caps]
    apply levelSizes_nonfinal
    rw [← build_levels_length]
    exact hi
  · show (List.map _ (build_levels t.min_level_size c)).getLast?.getD 0 ≤ _
    rw [build_levels_caps]
    exact levelSizes_last _ hm c

theorem LayoutOK_of_caps {t t' : ElasticHashTable}
    (hmin : t'.min_level_size = t.min_level_size)
    (hcaps : t'.levels.map (fun sub => sub.capacity) =
      t.levels.map (fun sub => sub.capacity))
    (h : LayoutOK t) : LayoutOK t' := by
  have hlen : t'.levels.length = t.levels.length := by
    have := congrArg List.length hcaps
    simpa using this
  constructor
  · intro i hi
    rw [hmin, hcaps]
    exact h.1 i (by omega)
  · rw [hmin, hcaps]
    exact h.2

/-! ## Structural preservation through the insert and rebuild recursion -/

theorem ops_struct (B : Nat → Nat → Nat) : ∀ fuel : Nat,
    (∀ t k v t', StructWF t → insert_owned B fuel t k v = some t' →
      StructWF t' ∧ (extract_entries t').Perm ((k, v) :: extract_entries t) ∧
      t'.count = t.count + 1 ∧ t'.min_level_size = t.min_level_size ∧
      (∃ j : Nat, t'.total_capacity = 2 ^ j * t.total_capacity) ∧
      (1 ≤ t.min_level_size → LayoutOK t → LayoutOK t')) ∧
    (∀ es t t', StructWF t → reinsert_all (insert_owned B fuel) es t = some t' →
      StructWF t' ∧ (extract_entries t').Perm (es ++ extract_entries t) ∧
      t'.count = t.count + es.length ∧
      t'.min_level_size = t.min_level_size ∧
      (∃ j : Nat, t'.total_capacity = 2 ^ j * t.total_capacity) ∧
      (1 ≤ t.min_level_size → LayoutOK t → LayoutOK t')) ∧
    (∀ t c t', StructWF t → 1 ≤ c → rebuild B fuel t c = some t' →
      StructWF t' ∧ (extract_entries t').Perm (extract_entries t) ∧
      t'.count = t.count ∧ t'.min_level_size = t.min_level_size ∧
      (∃ j : Nat, t'.total_capacity = 2 ^ j * c) ∧
      (1 ≤ t.min_level_size → LayoutOK t')) := by
  intro fuel
  induction fuel using Nat.strong_induction_on with
  | _ fuel ih =>
    have hP : ∀ t k v t', StructWF t → insert_owned B fuel t k v = some t' →
        StructWF t' ∧
        (extract_entries t').Perm ((k, v) :: extract_entries t) ∧
        t'.count = t.count + 1 ∧ t'.min_level_size = t.min_level_size ∧
        (∃ j : Nat, t'.total_capacity = 2 ^ j * t.total_capacity) ∧
        (1 ≤ t.min_level_size → LayoutOK t → LayoutOK t') := by
      intro t k v t' hwf hins
      cases fuel with
      | zero => simp [insert_owned] at hins
      | succ f =>
        rw [insert_owned_succ] at hins
        cases hcp : cascade_place B t k v with
        | some t2 =>
          rw [hcp] at hins
          simp only [Option.some.injEq] at hins
          subst hins
          obtain ⟨hwf2, hperm, hcnt, hcap, hmin, hcaps⟩ :=
            cascade_place_struct hwf hcp
          refine ⟨hwf2, hperm, hcnt, hmin, ⟨0, by simpa using hcap⟩, ?_⟩
          intro hm hlay
          exact LayoutOK_of_caps hmin hcaps hlay
        | none =>
          rw [hcp] at hins
          cases hrb : rebuild B f t (t.total_capacity * 2) with
          | none => rw [hrb] at hins; simp at hins
          | some t2 =>
            rw [hrb] at hins
            have hcpos : 1 ≤ t.total_capacity * 2 := by
              have := hwf.2.2.2
              omega
            have hR := ((ih f (by omega)).2.2) t (t.total_capacity * 2) t2
              hwf hcpos hrb
            have hP2 := ((ih f (by omega)).1) t2 k v t' hR.1 hins
            obtain ⟨hwf', hperm', hcnt', hmin', ⟨j2, hcap'⟩, hlay'⟩ := hP2
            obtain ⟨hwf2, hperm2, hcnt2, hmin2, ⟨j1, hcap2⟩, hlay2⟩ := hR
            refine ⟨hwf', ?_, ?_, ?_, ?_, ?_⟩
            · exact hperm'.trans (hperm2.cons (k, v))
            · omega
            · rw [hmin', hmin2]
            · refine ⟨j2 + j1 + 1, ?_⟩
              rw [hcap', hcap2]
              rw [Nat.pow_add, Nat.pow_add]
              ring
            · intro hm hlay
              apply hlay'
              · rw [hmin2]; exact hm
              · exact hlay2 hm
    have hQ : ∀ es t t', StructWF t → reinsert_all (insert_owned B fuel) es t = some t' →
        StructWF t' ∧ (extract_entries t').Perm (es ++ extract_entries t) ∧
        t'.count = t.count + es.length ∧
        t'.min_level_size = t.min_level_size ∧
        (∃ j : Nat, t'.total_capacity = 2 ^ j * t.total_capacity) ∧
        (1 ≤ t.min_level_size → LayoutOK t → LayoutOK t') := by
      intro es
      induction es with
      | nil =>
        intro t t' hwf h
        rw [reinsert_all] at h
        simp only [Option.some.injEq] at h
        subst h
        exact ⟨hwf, by simp, by simp, rfl, ⟨0, by simp⟩, fun _ h => h⟩
      | cons e es ihes =>
        obtain ⟨k, v⟩ := e
        intro t t' hwf h
        rw [reinsert_all] at h
        cases hio : insert_owned B fuel t k v with
        | none => rw [hio] at h; simp at h
        | some t1 =>
          rw [hio] at h
          obtain ⟨hwf1, hperm1, hcnt1, hmin1, ⟨j1, hcap1⟩, hlay1⟩ :=
            hP t k v t1 hwf hio
          obtain ⟨hwf', hperm', hcnt', hmin', ⟨j2, hcap'⟩, hlay'⟩ :=
            ihes t1 t' hwf1 h
          refine ⟨hwf', ?_, ?_, ?_, ?_, ?_⟩
          · refine hperm'.trans ?_
            have h1 := hperm1.append_left es
            refine h1.trans ?_
            exact List.perm_middle
          · simp only [List.length_cons]
            omega
          · rw [hmin', hmin1]
          · refine ⟨j2 + j1, ?_⟩
            rw [hcap', hcap1, Nat.pow_add]
            ring
          · intro hm hlay
            apply hlay'
            · rw [hmin1]; exact hm
            · exact hlay1 hm hlay
    have hR : ∀ t c t', StructWF t → 1 ≤ c → rebuild B fuel t c = some t' →
        StructWF t' ∧ (extract_entries t').Perm (extract_entries t) ∧
        t'.count = t.count ∧ t'.min_level_size = t.min_level_size ∧
        (∃ j : Nat, t'.total_capacity = 2 ^ j * c) ∧
        (1 ≤ t.min_level_size → LayoutOK t') := by
      intro t c t' hwf hc hrb
      rw [rebuild] at hrb
      have hfresh := fresh_table_struct t hc
      obtain ⟨hwf', hperm', hcnt', hmin', ⟨j, hcap'⟩, hlay'⟩ :=
        hQ (extract_entries t) _ t' hfresh hrb
      rw [extract_entries_fresh] at hperm'
      refine ⟨hwf', by simpa using hperm', ?_, hmin', ⟨j, hcap'⟩, ?_⟩
      · rw [hcnt']
        have hlen := extract_entries_length hwf
        simp only
        omega
      · intro hm
        apply hlay'
        · exact hm
        · exact LayoutOK_fresh t hm
    exact ⟨hP, hQ, hR⟩

/-! ## Structural preservation through the public operations -/

theorem countP_listModify {α : Type} (p : α → Bool) (l : List α) (i : Nat)
    (f : α → α) (hf : ∀ a, p (f a) = p a) :
    (listModify l i f).countP p = l.countP p := by
  unfold listModify
  cases h : l[i]? with
  | none => rfl
  | some a =>
    obtain ⟨hi, hia⟩ := List.getElem?_eq_some.mp h
    rw [List.countP_set _ _ _ _ hi, hf, hia]
    cases hpa : p a with
    | false => simp
    | true =>
      have hmem : a ∈ l := by
        rw [← hia]
        exact List.getElem_mem hi
      have hle : 1 ≤ l.countP p := List.countP_pos_iff.mpr ⟨a, hmem, hpa⟩
      simp only [reduceIte]
      omega

theorem map_listModify_eq {α β : Type} (gm : α → β) (l : List α) (i : Nat)
    (f : α → α) (hf : ∀ a, gm (f a) = gm a) :
    (listModify l i f).map gm = l.map gm := by
  unfold listModify
  cases h : l[i]? with
  | none => rfl
  | some a =>
    obtain ⟨hi, hia⟩ := List.getElem?_eq_some.mp h
    apply map_set_eq gm hi
    rw [hf, hia]

theorem length_listModify_lt {α : Type} {l : List α} {i : Nat} {a : α}
    (h : l[i]? = some a) (f : α → α) :
    listModify l i f = l.set i (f a) := by
  unfold listModify
  rw [h]

theorem update_value_slot_shape (v : List Nat) (s : Slot) :
    Slot.isOccB (match s with
      | .occupied k _ => Slot.occupied k v
      | s => s) = Slot.isOccB s ∧
    Slot.isTombB (match s with
      | .occupied k _ => Slot.occupied k v
      | s => s) = Slot.isTombB s := by
  cases s <;> exact ⟨rfl, rfl⟩

theorem update_value_struct (t : ElasticHashTable) (li i : Nat)
    (v : List Nat) (hwf : StructWF t) :
    StructWF (update_value t li i v) ∧
    (update_value t li i v).count = t.count ∧
    (update_value t li i v).total_capacity = t.total_capacity ∧
    (update_value t li i v).min_level_size = t.min_level_size ∧
    (update_value t li i v).levels.map (fun sub => sub.capacity) =
      t.levels.map (fun sub => sub.capacity) ∧
    (update_value t li i v).levels.map (fun sub => sub.count) =
      t.levels.map (fun sub => sub.count) ∧
    (update_value t li i v).levels.map (fun sub => sub.tombstones) =
      t.levels.map (fun sub => sub.tombstones) ∧
    (update_value t li i v).levels.length = t.levels.length := by
  have hgok : ∀ sub : SubArray, LevelOK sub → LevelOK
      { sub with slots := listModify sub.slots i fun s =>
          match s with
          | .occupied k _ => Slot.occupied k v
          | s => s } := by
    intro sub hlev
    refine ⟨?_, hlev.2.1, ?_, ?_⟩
    · show (listModify _ _ _).length = _
      rw [listModify_length]
      exact hlev.1
    · show sub.count = numOcc (listModify _ _ _)
      unfold numOcc
      rw [countP_listModify _ _ _ _ (fun s => (update_value_slot_shape v s).1)]
      exact hlev.2.2.1
    · show sub.tombstones = numTomb (listModify _ _ _)
      unfold numTomb
      rw [countP_listModify _ _ _ _ (fun s => (update_value_slot_shape v s).2)]
      exact hlev.2.2.2
  have hcnts : (update_value t li i v).levels.map (fun sub => sub.count) =
      t.levels.map (fun sub => sub.count) := by
    unfold update_value
    apply map_listModify_eq
    intro a
    rfl
  have hcaps : (update_value t li i v).levels.map (fun sub => sub.capacity) =
      t.levels.map (fun sub => sub.capacity) := by
    unfold update_value
    apply map_listModify_eq
    intro a
    rfl
  have htombs :
      (update_value t li i v).levels.map (fun sub => sub.tombstones) =
      t.levels.map (fun sub => sub.tombstones) := by
    unfold update_value
    apply map_listModify_eq
    intro a
    rfl
  refine ⟨⟨?_, ?_, ?_, ?_⟩, rfl, rfl, rfl, hcaps, hcnts, htombs, ?_⟩
  · intro sub2 hmem
    unfold update_value at hmem
    obtain ⟨j, hj⟩ := List.mem_iff_getElem?.mp hmem
    rcases eq_or_ne li j with rfl | hne
    · cases hli : t.levels[li]? with
      | none =>
        unfold listModify at hj
        rw [hli] at hj
        exact hwf.1 sub2 (List.mem_iff_getElem?.mpr ⟨li, hj⟩)
      | some sub =>
        rw [length_listModify_lt hli] at hj
        obtain ⟨hlt, hsub⟩ := List.getElem?_eq_some.mp hli
        rw [List.getElem?_set_self hlt] at hj
        injection hj with hj'
        rw [← hj']
        exact hgok sub (hwf.1 sub (by rw [← hsub]; exact List.getElem_mem hlt))
    · rw [listModify_getElem?_ne _ _ hne] at hj
      exact hwf.1 sub2 (List.mem_iff_getElem?.mpr ⟨j, hj⟩)
  · show t.count = _
    rw [hcnts]
    exact hwf.2.1
  · show t.total_capacity = _
    rw [hcaps]
    exact hwf.2.2.1
  · exact hwf.2.2.2
  · show (listModify t.levels li _).length = _
    rw [listModify_length]

theorem eht_delete_not_found {B : Nat → Nat → Nat} {t : ElasticHashTable}
    {q : List Nat} (h : find_key B t q = none) :
    eht_delete B t q = (0, t) := by
  unfold eht_delete
  rw [h]

theorem eht_delete_struct {B : Nat → Nat → Nat} {t : ElasticHashTable}
    (q : List Nat) (hwf : StructWF t) :
    StructWF (eht_delete B t q).2 ∧
    (eht_delete B t q).2.min_level_size = t.min_level_size ∧
    (eht_delete B t q).2.total_capacity = t.total_capacity ∧
    (eht_delete B t q).2.levels.map (fun sub => sub.capacity) =
      t.levels.map (fun sub => sub.capacity) := by
  cases hf : find_key B t q with
  | none =>
    rw [eht_delete_not_found hf]
    exact ⟨hwf, rfl, rfl, rfl⟩
  | some p =>
    obtain ⟨li, i⟩ := p
    obtain ⟨k, v, hocc, hs⟩ := find_key_sound hf
    obtain ⟨hli, hi⟩ := slotAt_lt hocc
    unfold eht_delete
    rw [hf]
    have hgetElem : t.levels[li] = t.levels.getD li default :=
      (List.getD_eq_getElem _ _ hli).symm
    have hli? : t.levels[li]? = some (t.levels.getD li default) := by
      rw [List.getElem?_eq_getElem hli, hgetElem]
    have hlev : LevelOK (t.levels.getD li default) := by
      apply hwf.1
      rw [List.getD_eq_getElem _ _ hli]
      exact List.getElem_mem hli
    have hielem : (t.levels.getD li default).slots[i] = .occupied k v := by
      rw [← List.getD_eq_getElem _ _ hi]
      exact hocc
    have hoccpos : 1 ≤ numOcc (t.levels.getD li default).slots :=
      numOcc_pos hocc
    have hcountpos : 1 ≤ (t.levels.getD li default).count := by
      rw [hlev.2.2.1]
      exact hoccpos
    have hmod : listModify t.levels li (fun sub =>
        { sub with
          slots := sub.slots.set i .tombstone,
          count := sub.count - 1,
          tombstones := sub.tombstones + 1 }) =
        t.levels.set li { t.levels.getD li default with
          slots := (t.levels.getD li default).slots.set i .tombstone,
          count := (t.levels.getD li default).count - 1,
          tombstones := (t.levels.getD li default).tombstones + 1 } :=
      length_listModify_lt hli? _
    have hdelOK : LevelOK { t.levels.getD li default with
        slots := (t.levels.getD li default).slots.set i .tombstone,
        count := (t.levels.getD li default).count - 1,
        tombstones := (t.levels.getD li default).tombstones + 1 } := by
      refine ⟨?_, hlev.2.1, ?_, ?_⟩
      · show ((t.levels.getD li default).slots.set i .tombstone).length = _
        rw [List.length_set]
        exact hlev.1
      · show (t.levels.getD li default).count - 1 = numOcc _
        unfold numOcc
        rw [List.countP_set _ _ _ _ hi, hielem]
        have h1 : Slot.isOccB (Slot.occupied k v) = true := rfl
        have h2 : Slot.isOccB Slot.tombstone = false := rfl
        rw [h1, h2, hlev.2.2.1]
        unfold numOcc
        simp
      · show (t.levels.getD li default).tombstones + 1 = numTomb _
        unfold numTomb
        rw [List.countP_set _ _ _ _ hi, hielem]
        have h1 : Slot.isTombB (Slot.occupied k v) = false := rfl
        have h2 : Slot.isTombB Slot.tombstone = true := rfl
        rw [h1, h2, hlev.2.2.2]
        unfold numTomb
        simp
    have hcapDS : (fun sub : SubArray => sub.capacity)
        ({ t.levels.getD li default with
          slots := (t.levels.getD li default).slots.set i .tombstone,
          count := (t.levels.getD li default).count - 1,
          tombstones := (t.levels.getD li default).tombstones + 1 }) =
        (fun sub : SubArray => sub.capacity) t.levels[li] := by
      rw [hgetElem]
    have hcaps : (t.levels.set li
        ({ t.levels.getD li default with
          slots := (t.levels.getD li default).slots.set i .tombstone,
          count := (t.levels.getD li default).count - 1,
          tombstones := (t.levels.getD li default).tombstones + 1 })).map
          (fun sub => sub.capacity) = t.levels.map (fun sub => sub.capacity) :=
      map_set_eq (fun sub => sub.capacity) hli hcapDS
    refine ⟨⟨?_, ?_, ?_, ?_⟩, rfl, rfl, ?_⟩
    · intro sub2 hmem
      simp only at hmem
      rw [hmod] at hmem
      obtain ⟨j, hj⟩ := List.mem_iff_getElem?.mp hmem
      rcases eq_or_ne li j with rfl | hne
      · rw [List.getElem?_set_self hli] at hj
        injection hj with hj'
        rw [← hj']
        exact hdelOK
      · rw [List.getElem?_set_ne hne] at hj
        exact hwf.1 sub2 (List.mem_iff_getElem?.mpr ⟨j, hj⟩)
    · show t.count - 1 = _
      simp only
      rw [hmod]
      have hms := map_sum_set (fun sub => sub.count) t.levels li
        ({ t.levels.getD li default with
          slots := (t.levels.getD li default).slots.set i .tombstone,
          count := (t.levels.getD li default).count - 1,
          tombstones := (t.levels.getD li default).tombstones + 1 }) hli
      have hdx : t.levels.getD li ({ t.levels.getD li default with
          slots := (t.levels.getD li default).slots.set i .tombstone,
          count := (t.levels.getD li default).count - 1,
          tombstones := (t.levels.getD li default).tombstones + 1 }) =
          t.levels.getD li default := by
        rw [List.getD_eq_getElem _ _ hli, List.getD_eq_getElem _ _ hli]
      rw [hdx] at hms
      have hDScnt : (fun sub : SubArray => sub.count)
          ({ t.levels.getD li default with
            slots := (t.levels.getD li default).slots.set i .tombstone,
            count := (t.levels.getD li default).count - 1,
            tombstones := (t.levels.getD li default).tombstones + 1 }) =
          (t.levels.getD li default).count - 1 := rfl
      rw [hDScnt] at hms
      have hbeta : (fun sub : SubArray => sub.count)
          (t.levels.getD li default) = (t.levels.getD li default).count := rfl
      rw [hbeta] at hms
      have hcnt := hwf.2.1
      omega
    · show t.total_capacity = _
      simp only
      rw [hmod, hcaps]
      exact hwf.2.2.1
    · exact hwf.2.2.2
    · simp only
      rw [hmod]
      exact hcaps

theorem eht_insert_struct {B : Nat → Nat → Nat} {fuel : Nat}
    {t t' : ElasticHashTable} {key value : List Nat} (hwf : StructWF t)
    (h : eht_insert B fuel t key value = some t') :
    StructWF t' ∧ t'.min_level_size = t.min_level_size ∧
    (1 ≤ t.min_level_size → LayoutOK t → LayoutOK t') := by
  unfold eht_insert at h
  cases hf : find_key B t key with
  | some p =>
    obtain ⟨li, i⟩ := p
    rw [hf] at h
    simp only [Option.some.injEq] at h
    subst h
    obtain ⟨hwf', hc1, hc2, hmin, hcaps, _, _, _⟩ :=
      update_value_struct t li i value hwf
    exact ⟨hwf', hmin, fun hm hlay => LayoutOK_of_caps hmin hcaps hlay⟩
  | none =>
    rw [hf] at h
    simp only at h
    cases hg1 : (if load_threshold t.total_capacity ≤ t.count
        then rebuild B fuel t (t.total_capacity * 2) else some t) with
    | none => rw [hg1] at h; simp at h
    | some t1 =>
      rw [hg1] at h
      simp only at h
      have hT1 : StructWF t1 ∧ t1.min_level_size = t.min_level_size ∧
          (1 ≤ t.min_level_size → LayoutOK t → LayoutOK t1) := by
        by_cases hc : load_threshold t.total_capacity ≤ t.count
        · rw [if_pos hc] at hg1
          have hc2 : 1 ≤ t.total_capacity * 2 := by
            have := hwf.2.2.2
            omega
          have hR := ((ops_struct B fuel).2.2) t _ t1 hwf hc2 hg1
          exact ⟨hR.1, hR.2.2.2.1, fun hm _ => hR.2.2.2.2.2 hm⟩
        · rw [if_neg hc] at hg1
          injection hg1 with hg1'
          subst hg1'
          exact ⟨hwf, rfl, fun _ hl => hl⟩
      cases hg2 : (if tomb_threshold t1.total_capacity ≤ total_tombstones t1
          then rebuild B fuel t1 t1.total_capacity else some t1) with
      | none => rw [hg2] at h; simp at h
      | some t2 =>
        rw [hg2] at h
        have hT2 : StructWF t2 ∧ t2.min_level_size = t1.min_level_size ∧
            (1 ≤ t1.min_level_size → LayoutOK t1 → LayoutOK t2) := by
          by_cases hc : tomb_threshold t1.total_capacity ≤
              total_tombstones t1
          · rw [if_pos hc] at hg2
            have hc2 : 1 ≤ t1.total_capacity := hT1.1.2.2.2
            have hR := ((ops_struct B fuel).2.2) t1 _ t2 hT1.1 hc2 hg2
            exact ⟨hR.1, hR.2.2.2.1, fun hm _ => hR.2.2.2.2.2 hm⟩
          · rw [if_neg hc] at hg2
            injection hg2 with hg2'
            subst hg2'
            exact ⟨hT1.1, rfl, fun _ hl => hl⟩
        have hP := ((ops_struct B fuel).1) t2 (cstr key) value t' hT2.1 h
        refine ⟨hP.1, ?_, ?_⟩
        · rw [hP.2.2.2.1, hT2.2.1, hT1.2.1]
        · intro hm hlay
          apply hP.2.2.2.2.2
          · rw [hT2.2.1, hT1.2.1]
            exact hm
          · exact hT2.2.2 (by rw [hT1.2.1]; exact hm) (hT1.2.2 hm hlay)

theorem eht_create_struct (c : Nat) :
    StructWF (eht_create c) ∧ (eht_create c).min_level_size = 16 ∧
    LayoutOK (eht_create c) ∧ (eht_create c).count = 0 ∧
    64 ≤ (eht_create c).total_capacity := by
  have hc' : (1 : Nat) ≤ if c < 64 then 64 else c := by split <;> omega
  refine ⟨?_, rfl, ?_, rfl, ?_⟩
  · exact fresh_table_struct (eht_create c) hc'
  · exact LayoutOK_fresh (eht_create c) (show (1 : Nat) ≤ 16 by omega)
  · show (64 : Nat) ≤ if c < 64 then 64 else c
    split <;> omega

theorem reachable_struct {B : Nat → Nat → Nat} {t : ElasticHashTable}
    (h : Reachable B t) :
    StructWF t ∧ t.min_level_size = 16 ∧ LayoutOK t := by
  induction h with
  | create c =>
    obtain ⟨hs, hm, hl, _, _⟩ := eht_create_struct c
    exact ⟨hs, hm, hl⟩
  | insert fuel key value hre hins ih =>
    obtain ⟨hs, hm, hl⟩ := ih
    obtain ⟨hs', hm', hlay'⟩ := eht_insert_struct hs hins
    exact ⟨hs', by rw [hm', hm], hlay' (by omega) hl⟩
  | delete key hre ih =>
    obtain ⟨hs, hm, hl⟩ := ih
    obtain ⟨hs', hm', htot', hcaps'⟩ := eht_delete_struct key hs
    exact ⟨hs', by rw [hm', hm], LayoutOK_of_caps hm' hcaps' hl⟩
  | @rebuildGrow t0 t0' fuel hre hrb ih =>
    obtain ⟨hs, hm, hl⟩ := ih
    have hc2 : 1 ≤ t0.total_capacity * 2 := by
      have := hs.2.2.2
      omega
    have hR := ((ops_struct B fuel).2.2) _ _ _ hs hc2 hrb
    exact ⟨hR.1, by rw [hR.2.2.2.1, hm], hR.2.2.2.2.2 (by omega)⟩
  | rebuildCompact fuel hre hrb ih =>
    obtain ⟨hs, hm, hl⟩ := ih
    have hR := ((ops_struct B fuel).2.2) _ _ _ hs hs.2.2.2 hrb
    exact ⟨hR.1, by rw [hR.2.2.2.1, hm], hR.2.2.2.2.2 (by omega)⟩

/-! ## FNV specification equivalence -/

theorem fnv1aSpec_eq (key : List Nat) : ∀ h0 : Nat,
    fnv1aSpec h0 key = (cstr key).foldl fnvStep h0 := by
  induction key with
  | nil => intro h0; rfl
  | cons b bs ih =>
    intro h0
    by_cases hb : b = 0
    · subst hb
      simp [fnv1aSpec, cstr]
    · simp [fnv1aSpec, cstr, List.takeWhile_cons, hb, ih]

/-! ## The claims -/

/-- C9: for every key (bytes up to the first NUL) and level index, the
dual hash is the salted 64-bit FNV-1a pair described by the
specification: `h1` uses salt `L * 0x9E3779B97F4A7C15 + 0xA1`, `h2` uses
salt `L * 0x517CC1B727220A95 + 0xB2` and is bitwise-ORed with 1, hence
always odd; and the hash depends only on the key bytes up to the first
NUL and the level index, so the same key and level always yield the same
pair. -/
theorem C9_dual_hash (key : List Nat) (L : Nat) :
    dual_hash key L =
      (fnv1aSpec ((0xcbf29ce484222325 ^^^
          ((L * 0x9E3779B97F4A7C15 + 0xA1) % 2 ^ 64)) % 2 ^ 64) key,
       fnv1aSpec ((0xcbf29ce484222325 ^^^
          ((L * 0x517CC1B727220A95 + 0xB2) % 2 ^ 64)) % 2 ^ 64) key ||| 1) ∧
    (dual_hash key L).2 % 2 = 1 ∧
    (∀ key2 L2, cstr key2 = cstr key → L2 = L →
      dual_hash key2 L2 = dual_hash key L) := by
  refine ⟨?_, ?_, ?_⟩
  · unfold dual_hash fnv1a_salted salt1 salt2
    rw [fnv1aSpec_eq, fnv1aSpec_eq]
  · exact lor_one_mod_two _
  · intro key2 L2 hk hL
    subst hL
    exact dual_hash_congr hk _

/-- Witness for C9: the oddness of `h2` and the NUL-truncation
determinism, evaluated at the concrete key `[65]` and level 0 (the key
`[65, 0, 66]` has the same bytes before its first NUL). -/
theorem C9_witness :
    (dual_hash [65] 0).2 % 2 = 1 ∧
    dual_hash [65, 0, 66] 0 = dual_hash [65] 0 := by
  obtain ⟨h1, h2, h3⟩ := C9_dual_hash [65] 0
  exact ⟨h2, h3 [65, 0, 66] 0 (by decide) rfl⟩

/-- C10: deleting a key that is not present (no occupied slot holds a
`strcmp`-equal key) returns 0 and leaves the entire table state — every
slot, every counter, `total_capacity` and the level list — unchanged. -/
theorem C10_delete_absent (B : Nat → Nat → Nat) (t : ElasticHashTable)
    (k : List Nat) (habs : hasKeyB t k = false) :
    eht_delete B t k = (0, t) :=
  eht_delete_not_found (find_key_none_of_absent habs)

/-- Witness for C10 at a freshly created table and the key `[1]`. -/
theorem C10_witness :
    hasKeyB (eht_create 64) [1] = false ∧
    eht_delete fullBudget (eht_create 64) [1] = (0, eht_create 64) :=
  ⟨by decide, C10_delete_absent fullBudget (eht_create 64) [1] (by decide)⟩

/-- C6: every table reachable from `eht_create` by insert, delete and
rebuild operations (get and contains do not mutate) has its `count`
equal to the sum of the per-level counts, and its `total_capacity` equal
to the sum of the per-level capacities. -/
theorem C6_reachable_sums (B : Nat → Nat → Nat) (t : ElasticHashTable)
    (h : Reachable B t) :
    t.count = (t.levels.map (fun sub => sub.count)).sum ∧
    t.total_capacity = (t.levels.map (fun sub => sub.capacity)).sum := by
  obtain ⟨hs, _, _⟩ := reachable_struct h
  exact ⟨hs.2.1, hs.2.2.1⟩

/-- Witness for C6 at the reachable table `eht_create 64`. -/
theorem C6_witness :
    (eht_create 64).count =
      ((eht_create 64).levels.map (fun sub => sub.count)).sum ∧
    (eht_create 64).total_capacity =
      ((eht_create 64).levels.map (fun sub => sub.capacity)).sum :=
  C6_reachable_sums fullBudget (eht_create 64) (Reachable.create 64)

/-- C7 as stated is false: `eht_create 66` is reachable, its level
capacities are `[33, 16, 17]`, and the non-final level at index 1 has
capacity 16, which is strictly less than `min_level_size + 1 = 17`. -/
theorem C7_counterexample :
    Reachable fullBudget (eht_create 66) ∧
    (eht_create 66).levels.map (fun sub => sub.capacity) = [33, 16, 17] ∧
    ¬ (∀ i, i + 1 < (eht_create 66).levels.length →
      (eht_create 66).min_level_size + 1 ≤
        ((eht_create 66).levels.map (fun sub => sub.capacity)).getD i 0) := by
  refine ⟨Reachable.create 66, by decide, ?_⟩
  intro hcl
  have h1 := hcl 1 (by decide)
  revert h1
  decide

/-- C7 amended: in every reachable table each non-final level has
capacity at least `min_level_size` (not `min_level_size + 1`: a remainder
of `2 * min_level_size + 1` emits a level of exactly `min_level_size`),
and the final level has capacity at most `2 * min_level_size`;
`min_level_size` is 16 in every reachable table. -/
theorem C7_amended (B : Nat → Nat → Nat) (t : ElasticHashTable)
    (h : Reachable B t) :
    t.min_level_size = 16 ∧
    (∀ i, i + 1 < t.levels.length →
      t.min_level_size ≤
        (t.levels.map (fun sub => sub.capacity)).getD i 0) ∧
    (t.levels.map (fun sub => sub.capacity)).getLast?.getD 0 ≤
      2 * t.min_level_size := by
  obtain ⟨hs, hm, hl⟩ := reachable_struct h
  exact ⟨hm, hl.1, hl.2⟩

/-- Witness for the amended C7 at the reachable table `eht_create 64`. -/
theorem C7_amended_witness :
    (eht_create 64).min_level_size = 16 ∧
    (∀ i, i + 1 < (eht_create 64).levels.length →
      (eht_create 64).min_level_size ≤
        ((eht_create 64).levels.map (fun sub => sub.capacity)).getD i 0) ∧
    ((eht_create 64).levels.map (fun sub => sub.capacity)).getLast?.getD 0 ≤
      2 * (eht_create 64).min_level_size :=
  C7_amended fullBudget (eht_create 64) (Reachable.create 64)

/-- C8: with the C parameters (`min_level_size = 16`), the level layout
is the stated loop — while the remainder exceeds `2 * 16` emit a level of
half the remainder (integer division) and subtract it, then emit the
whole remainder as the final level — the emitted capacities always sum to
the input capacity exactly, and for every requested capacity at or above
the clamped floor of 64, `eht_create`'s level capacities are exactly this
sequence. -/
theorem C8_level_layout :
    (∀ r, 2 * 16 < r →
      levelSizes 16 r = r / 2 :: levelSizes 16 (r - r / 2)) ∧
    (∀ r, r ≤ 2 * 16 → levelSizes 16 r = [r]) ∧
    (∀ C, (levelSizes 16 C).sum = C) ∧
    (∀ C, 64 ≤ C →
      (eht_create C).levels.map (fun sub => sub.capacity) =
        levelSizes 16 C) := by
  refine ⟨?_, ?_, levelSizes_sum 16, ?_⟩
  · intro r hr
    exact levelSizes_step hr (by omega)
  · intro r hr
    exact levelSizes_base (by omega)
  · intro C hC
    have hifC : (if C < 64 then 64 else C) = C := by
      rw [if_neg (by omega)]
    show (build_levels 16 (if C < 64 then 64 else C)).map _ = _
    rw [hifC, build_levels_caps]

/-- Witness for C8 at capacities 100 and 30. -/
theorem C8_witness :
    levelSizes 16 100 = 50 :: levelSizes 16 50 ∧
    levelSizes 16 30 = [30] ∧
    (levelSizes 16 100).sum = 100 ∧
    (eht_create 100).levels.map (fun sub => sub.capacity) =
      levelSizes 16 100 :=
  ⟨C8_level_layout.1 100 (by decide), C8_level_layout.2.1 30 (by decide),
   C8_level_layout.2.2.1 100, C8_level_layout.2.2.2 100 (by decide)⟩

/-! ## Key-level preservation through placement -/

theorem isOccB_ne_empty {s : Slot} (h : Slot.isOccB s = true) :
    s ≠ .empty := by
  cases s <;> simp_all [Slot.isOccB]

theorem numTomb_pos {slots : List Slot} {i : Nat}
    (h : slots.getD i .empty = .tombstone) : 1 ≤ numTomb slots := by
  have hi : i < slots.length := by
    by_contra hlt
    push_neg at hlt
    rw [List.getD_eq_default _ _ hlt] at h
    simp at h
  rw [List.getD_eq_getElem _ _ hi] at h
  have hmem : slots[i] ∈ slots := List.getElem_mem hi
  rw [h] at hmem
  have hp : 0 < slots.countP Slot.isTombB :=
    List.countP_pos_iff.mpr ⟨Slot.tombstone, hmem, rfl⟩
  unfold numTomb
  omega

theorem placed_level_slots (sub : SubArray) (k v : List Nat) (i : Nat) :
    (placed_level sub k v i).slots = sub.slots.set i (.occupied k v) := rfl

theorem placed_level_getD_self {sub : SubArray} (k v : List Nat) {i : Nat}
    (hi : i < sub.slots.length) :
    (placed_level sub k v i).slots.getD i .empty = .occupied k v := by
  rw [placed_level_slots, getD_set_self hi]

theorem placed_level_getD_ne {sub : SubArray} (k v : List Nat) {i j : Nat}
    (hne : i ≠ j) :
    (placed_level sub k v i).slots.getD j .empty =
      sub.slots.getD j .empty := by
  rw [placed_level_slots, getD_set_ne _ hne]

theorem placed_used_ge {sub : SubArray} (k v : List Nat) {i : Nat}
    (hlev : LevelOK sub)
    (hfree : sub.slots.getD i .empty = .empty ∨
      sub.slots.getD i .empty = .tombstone) :
    sub.count + sub.tombstones ≤
      (placed_level sub k v i).count + (placed_level sub k v i).tombstones := by
  show sub.count + sub.tombstones ≤ (sub.count + 1) +
    (if sub.slots.getD i .empty = .tombstone then sub.tombstones - 1
     else sub.tombstones)
  rcases hfree with hf | hf
  · rw [if_neg (by rw [hf]; simp)]
    omega
  · rw [if_pos hf]
    have h1 := numTomb_pos hf
    have h2 := hlev.2.2.2
    omega

theorem probePos_placed (sub : SubArray) (k0 v0 : List Nat) (i : Nat)
    (k : List Nat) (a : Nat) :
    probePos k (placed_level sub k0 v0 i) a = probePos k sub a := rfl

theorem budget_placed_ge {B : Nat → Nat → Nat} (hB : BudgetMono B)
    {sub : SubArray} (k v : List Nat) {i : Nat} (hlev : LevelOK sub)
    (hfree : sub.slots.getD i .empty = .empty ∨
      sub.slots.getD i .empty = .tombstone) :
    budgetOf B sub ≤ budgetOf B (placed_level sub k v i) := by
  unfold budgetOf
  have hc : (placed_level sub k v i).capacity = sub.capacity := rfl
  rw [hc]
  exact hB _ _ _ (placed_used_ge k v hlev hfree)

theorem Findable_placed {B : Nat → Nat → Nat} (hB : BudgetMono B)
    {sub : SubArray} (k0 v0 : List Nat) {i : Nat} (hlev : LevelOK sub)
    (hilt : i < sub.slots.length)
    (hfree : sub.slots.getD i .empty = .empty ∨
      sub.slots.getD i .empty = .tombstone)
    {k2 : List Nat} {j : Nat} (hf : Findable B sub k2 j) :
    Findable B (placed_level sub k0 v0 i) k2 j := by
  obtain ⟨a2, ha2, hpos2, hpre2⟩ := hf
  refine ⟨a2, Nat.lt_of_lt_of_le ha2 (budget_placed_ge hB k0 v0 hlev hfree),
    ?_, ?_⟩
  · rw [probePos_placed]
    exact hpos2
  · intro b hb
    rw [probePos_placed]
    rcases eq_or_ne i (probePos k2 sub b) with heq | hne
    · rw [← heq, placed_level_getD_self k0 v0 hilt]
      simp
    · rw [placed_level_getD_ne k0 v0 hne]
      exact hpre2 b hb

theorem Findable_placed_new {B : Nat → Nat → Nat} (hB : BudgetMono B)
    {sub : SubArray} (k v : List Nat) {i a : Nat} (hlev : LevelOK sub)
    (hilt : i < sub.slots.length)
    (hfree : sub.slots.getD i .empty = .empty ∨
      sub.slots.getD i .empty = .tombstone)
    (ha : a < budgetOf B sub) (hpos : i = probePos k sub a)
    (hpre : ∀ b, b < a →
      Slot.isOccB (sub.slots.getD (probePos k sub b) .empty) = true) :
    Findable B (placed_level sub k v i) k i := by
  refine ⟨a, Nat.lt_of_lt_of_le ha (budget_placed_ge hB k v hlev hfree),
    ?_, ?_⟩
  · rw [probePos_placed]
    exact hpos.symm
  · intro b hb
    rw [probePos_placed]
    rcases eq_or_ne i (probePos k sub b) with heq | hne
    · rw [← heq, placed_level_getD_self k v hilt]
      simp
    · rw [placed_level_getD_ne k v hne]
      exact isOccB_ne_empty (hpre b hb)

theorem slotAt_set_level {t : ElasticHashTable} {d : Nat} {nsub : SubArray}
    (hd : d < t.levels.length) (cnt : Nat) (lj j : Nat) :
    slotAt { t with levels := t.levels.set d nsub, count := cnt } lj j =
      if lj = d then nsub.slots.getD j .empty else slotAt t lj j := by
  unfold slotAt
  simp only
  rcases eq_or_ne lj d with heq | hne
  · rw [if_pos heq, heq, getD_set_self hd]
  · rw [if_neg hne, getD_set_ne _ (Ne.symm hne)]

theorem getD_set_level_self {t : ElasticHashTable} {d : Nat}
    {nsub : SubArray} (hd : d < t.levels.length) :
    (t.levels.set d nsub).getD d default = nsub :=
  getD_set_self hd nsub default

theorem cascade_place_wf {B : Nat → Nat → Nat} (hB : BudgetMono B)
    {t t' : ElasticHashTable} {k v : List Nat} (hwf : WF B t)
    (hclean : ∀ b ∈ k, b ≠ 0) (habs : hasKeyB t k = false)
    (h : cascade_place B t k v = some t') : WF B t' := by
  obtain ⟨hstruct, hkey⟩ := hwf
  have hstruct' := (cascade_place_struct hstruct h).1
  unfold cascade_place at h
  cases hpl : place_levels B k v t.levels with
  | none => rw [hpl] at h; simp at h
  | some ls' =>
    rw [hpl] at h
    simp only [Option.map_some', Option.some.injEq] at h
    obtain ⟨d, a, i, hd, ha, hipos, hfree, hpre, hset⟩ := place_levels_spec hpl
    subst hset
    subst h
    refine ⟨hstruct', ?_⟩
    have hsubmem : t.levels.getD d default ∈ t.levels := by
      rw [List.getD_eq_getElem _ _ hd]
      exact List.getElem_mem hd
    have hlev : LevelOK (t.levels.getD d default) := hstruct.1 _ hsubmem
    have hilt : i < (t.levels.getD d default).slots.length := by
      rw [hipos, hlev.1]
      exact probePos_lt hlev.2.1 k a
    have hchar := @slotAt_set_level t d
      (placed_level (t.levels.getD d default) k v i) hd (t.count + 1)
    intro lj j k2 v2 hocc2
    rw [hchar] at hocc2
    by_cases hlje : lj = d
    · rw [if_pos hlje] at hocc2
      show _ ∧ Findable B (({ t with
        levels := t.levels.set d (placed_level (t.levels.getD d default) k v i),
        count := t.count + 1 } : ElasticHashTable).levels.getD lj default)
          k2 j ∧ _
      have hget : ({ t with
          levels := t.levels.set d
            (placed_level (t.levels.getD d default) k v i),
          count := t.count + 1 } : ElasticHashTable).levels.getD lj default =
          placed_level (t.levels.getD d default) k v i := by
        rw [hlje]
        exact getD_set_level_self hd
      rw [hget]
      by_cases hje : j = i
      · have hocc3 : Slot.occupied k v = Slot.occupied k2 v2 := by
          rw [← hocc2, hje, placed_level_getD_self k v hilt]
        injection hocc3 with hk2 hv2
        subst hk2
        subst hv2
        subst hje
        refine ⟨hclean, ?_, ?_⟩
        · exact Findable_placed_new hB k v hlev hilt hfree ha hipos hpre
        · intro lj2 j2 k3 v3 hocc3 hc3
          rw [hchar] at hocc3
          by_cases hlje2 : lj2 = d
          · rw [if_pos hlje2] at hocc3
            by_cases hje2 : j2 = j
            · exact ⟨by rw [hlje2, hlje], hje2⟩
            · rw [placed_level_getD_ne k v (fun hh => hje2 hh.symm)]
                at hocc3
              have hhk : hasKeyB t k = true := hasKeyB_iff.mpr
                ⟨d, j2, k3, v3, hocc3, strEqb_iff.mpr hc3⟩
              rw [habs] at hhk
              simp at hhk
          · rw [if_neg hlje2] at hocc3
            have hhk : hasKeyB t k = true := hasKeyB_iff.mpr
              ⟨lj2, j2, k3, v3, hocc3, strEqb_iff.mpr hc3⟩
            rw [habs] at hhk
            simp at hhk
      · have hocc4 : slotAt t d j = .occupied k2 v2 := by
          rw [← hocc2, placed_level_getD_ne k v (fun hh => hje hh.symm)]
          rfl
        obtain ⟨hclean2, hfind2, huniq2⟩ := hkey d j k2 v2 hocc4
        refine ⟨hclean2, ?_, ?_⟩
        · exact Findable_placed hB k v hlev hilt hfree hfind2
        · intro lj2 j2 k3 v3 hocc3 hc3
          rw [hchar] at hocc3
          by_cases hlje2 : lj2 = d
          · rw [if_pos hlje2] at hocc3
            by_cases hje2 : j2 = i
            · have hocc5 : Slot.occupied k v = Slot.occupied k3 v3 := by
                rw [← hocc3, hje2, placed_level_getD_self k v hilt]
              injection hocc5 with hk3 hv3
              subst hk3
              have hhk : hasKeyB t k = true := hasKeyB_iff.mpr
                ⟨d, j, k2, v2, hocc4, strEqb_iff.mpr hc3.symm⟩
              rw [habs] at hhk
              simp at hhk
            · rw [placed_level_getD_ne k v (fun hh => hje2 hh.symm)]
                at hocc3
              have hu := huniq2 d j2 k3 v3 hocc3 hc3
              exact ⟨by rw [hlje2, hlje], hu.2⟩
          · rw [if_neg hlje2] at hocc3
            have hu := huniq2 lj2 j2 k3 v3 hocc3 hc3
            exact ⟨by rw [hu.1, hlje], hu.2⟩
    · rw [if_neg hlje] at hocc2
      obtain ⟨hclean2, hfind2, huniq2⟩ := hkey lj j k2 v2 hocc2
      show _ ∧ Findable B (({ t with
        levels := t.levels.set d (placed_level (t.levels.getD d default) k v i),
        count := t.count + 1 } : ElasticHashTable).levels.getD lj default)
          k2 j ∧ _
      have hget : ({ t with
          levels := t.levels.set d
            (placed_level (t.levels.getD d default) k v i),
          count := t.count + 1 } : ElasticHashTable).levels.getD lj default =
          t.levels.getD lj default := by
        show (t.levels.set d _).getD lj default = _
        rw [getD_set_ne _ (fun hh => hlje hh.symm)]
      rw [hget]
      refine ⟨hclean2, hfind2, ?_⟩
      intro lj2 j2 k3 v3 hocc3 hc3
      rw [hchar] at hocc3
      by_cases hlje2 : lj2 = d
      · rw [if_pos hlje2] at hocc3
        by_cases hje2 : j2 = i
        · have hocc5 : Slot.occupied k v = Slot.occupied k3 v3 := by
            rw [← hocc3, hje2, placed_level_getD_self k v hilt]
          injection hocc5 with hk3 hv3
          subst hk3
          have hhk : hasKeyB t k = true := hasKeyB_iff.mpr
            ⟨lj, j, k2, v2, hocc2, strEqb_iff.mpr hc3.symm⟩
          rw [habs] at hhk
          simp at hhk
        · rw [placed_level_getD_ne k v (fun hh => hje2 hh.symm)] at hocc3
          have hu := huniq2 d j2 k3 v3 hocc3 hc3
          exact ⟨by rw [hlje2]; exact hu.1, hu.2⟩
      · rw [if_neg hlje2] at hocc3
        exact huniq2 lj2 j2 k3 v3 hocc3 hc3

/-! ## Entries of a table and key disjointness -/

theorem slotEntry_some {s : Slot} {e : List Nat × List Nat}
    (h : slotEntry s = some e) : s = .occupied e.1 e.2 := by
  cases s with
  | empty => simp [slotEntry] at h
  | tombstone => simp [slotEntry] at h
  | occupied k v =>
    simp only [slotEntry, Option.some.injEq] at h
    subst h
    rfl

theorem mem_extract_iff {t : ElasticHashTable} {e : List Nat × List Nat} :
    e ∈ extract_entries t ↔ ∃ li i, slotAt t li i = .occupied e.1 e.2 := by
  unfold extract_entries
  rw [List.mem_flatten]
  constructor
  · rintro ⟨l, hl, hel⟩
    rcases List.mem_map.mp hl with ⟨sub, hsub, rfl⟩
    rcases List.mem_filterMap.mp hel with ⟨s, hs, hse⟩
    have hse2 := slotEntry_some hse
    obtain ⟨li, hli⟩ := List.mem_iff_getElem?.mp hsub
    obtain ⟨i, hi⟩ := List.mem_iff_getElem?.mp hs
    refine ⟨li, i, ?_⟩
    unfold slotAt
    rw [getD_of_getElem? default hli, getD_of_getElem? .empty hi]
    exact hse2
  · rintro ⟨li, i, hocc⟩
    obtain ⟨hli, hi⟩ := slotAt_lt hocc
    refine ⟨(t.levels.getD li default).slots.filterMap slotEntry, ?_, ?_⟩
    · refine List.mem_map.mpr ⟨t.levels.getD li default, ?_, rfl⟩
      rw [List.getD_eq_getElem _ _ hli]
      exact List.getElem_mem hli
    · refine List.mem_filterMap.mpr ⟨Slot.occupied e.1 e.2, ?_, rfl⟩
      have h2 : (t.levels.getD li default).slots.getD i .empty =
          Slot.occupied e.1 e.2 := hocc
      rw [List.getD_eq_getElem _ _ hi] at h2
      rw [← h2]
      exact List.getElem_mem hi

theorem hasKeyB_entries {t : ElasticHashTable} {q : List Nat} :
    hasKeyB t q = true ↔
      ∃ e ∈ extract_entries t, strEqb e.1 q = true := by
  rw [hasKeyB_iff]
  constructor
  · rintro ⟨li, i, k, v, hocc, hs⟩
    exact ⟨(k, v), mem_extract_iff.mpr ⟨li, i, hocc⟩, hs⟩
  · rintro ⟨e, he, hs⟩
    obtain ⟨li, i, hocc⟩ := mem_extract_iff.mp he
    exact ⟨li, i, e.1, e.2, hocc, hs⟩

theorem hasKeyB_false_of_perm {t t' : ElasticHashTable} {q : List Nat}
    (hperm : (extract_entries t').Perm (extract_entries t))
    (h : hasKeyB t q = false) : hasKeyB t' q = false := by
  cases hh : hasKeyB t' q with
  | false => rfl
  | true =>
    obtain ⟨e, he, hs⟩ := hasKeyB_entries.mp hh
    have h2 : hasKeyB t q = true :=
      hasKeyB_entries.mpr ⟨e, hperm.mem_iff.mp he, hs⟩
    rw [h] at h2
    simp at h2

theorem entries_clean {B : Nat → Nat → Nat} {t : ElasticHashTable}
    (hwf : WF B t) : ∀ e ∈ extract_entries t, ∀ b ∈ e.1, b ≠ 0 := by
  intro e he
  obtain ⟨li, i, hocc⟩ := mem_extract_iff.mp he
  exact (hwf.2 li i e.1 e.2 hocc).1

theorem entries_nodup {B : Nat → Nat → Nat} {t : ElasticHashTable}
    (hwf : WF B t) :
    (extract_entries t).Pairwise (fun e1 e2 => ¬ cstr e1.1 = cstr e2.1) := by
  unfold extract_entries
  rw [List.pairwise_flatten]
  constructor
  · intro l hl
    rcases List.mem_map.mp hl with ⟨sub, hsub, rfl⟩
    obtain ⟨li, hli⟩ := List.mem_iff_getElem?.mp hsub
    have hgd : t.levels.getD li default = sub := getD_of_getElem? default hli
    rw [List.pairwise_filterMap, List.pairwise_iff_getElem]
    intro i j hi hj hij e1 he1 e2 he2
    have hs1 : sub.slots[i] = Slot.occupied e1.1 e1.2 :=
      slotEntry_some (Option.mem_def.mp he1)
    have hs2 : sub.slots[j] = Slot.occupied e2.1 e2.2 :=
      slotEntry_some (Option.mem_def.mp he2)
    have hocc1 : slotAt t li i = Slot.occupied e1.1 e1.2 := by
      unfold slotAt
      rw [hgd, List.getD_eq_getElem _ _ hi]
      exact hs1
    have hocc2 : slotAt t li j = Slot.occupied e2.1 e2.2 := by
      unfold slotAt
      rw [hgd, List.getD_eq_getElem _ _ hj]
      exact hs2
    intro hc
    have hu := (hwf.2 li i e1.1 e1.2 hocc1).2.2 li j e2.1 e2.2 hocc2 hc.symm
    omega
  · rw [List.pairwise_iff_getElem]
    intro li lj hli hlj hij
    intro x hx y hy hc
    rw [List.getElem_map] at hx hy
    rcases List.mem_filterMap.mp hx with ⟨s1, hs1, hse1⟩
    rcases List.mem_filterMap.mp hy with ⟨s2, hs2, hse2⟩
    obtain ⟨i, hi⟩ := List.mem_iff_getElem?.mp hs1
    obtain ⟨j, hj⟩ := List.mem_iff_getElem?.mp hs2
    have hlen1 : li < t.levels.length := by simpa using hli
    have hlen2 : lj < t.levels.length := by simpa using hlj
    have hocc1 : slotAt t li i = Slot.occupied x.1 x.2 := by
      unfold slotAt
      rw [List.getD_eq_getElem _ _ hlen1, getD_of_getElem? .empty hi]
      exact slotEntry_some hse1
    have hocc2 : slotAt t lj j = Slot.occupied y.1 y.2 := by
      unfold slotAt
      rw [List.getD_eq_getElem _ _ hlen2, getD_of_getElem? .empty hj]
      exact slotEntry_some hse2
    have hu := (hwf.2 li i x.1 x.2 hocc1).2.2 lj j y.1 y.2 hocc2 hc.symm
    omega

theorem fresh_table_wf (B : Nat → Nat → Nat) (t : ElasticHashTable)
    {c : Nat} (hc : 1 ≤ c) :
    WF B { t with
      total_capacity := c
      count := 0
      levels := build_levels t.min_level_size c } := by
  refine ⟨fresh_table_struct t hc, ?_⟩
  intro li i k v hocc
  exfalso
  have hmem : ((k, v) : List Nat × List Nat) ∈ extract_entries { t with
      total_capacity := c
      count := 0
      levels := build_levels t.min_level_size c } :=
    mem_extract_iff.mpr ⟨li, i, hocc⟩
  rw [extract_entries_fresh] at hmem
  simp at hmem

/-! ## Key-level preservation through the insert and rebuild recursion -/

theorem ops_wf (B : Nat → Nat → Nat) (hB : BudgetMono B) : ∀ fuel : Nat,
    (∀ t k v t', WF B t → (∀ b ∈ k, b ≠ 0) → hasKeyB t k = false →
      insert_owned B fuel t k v = some t' → WF B t') ∧
    (∀ es t t', WF B t →
      (∀ e ∈ es, ∀ b ∈ e.1, b ≠ 0) →
      es.Pairwise (fun e1 e2 => ¬ cstr e1.1 = cstr e2.1) →
      (∀ e ∈ es, hasKeyB t e.1 = false) →
      reinsert_all (insert_owned B fuel) es t = some t' → WF B t') ∧
    (∀ t c t', WF B t → 1 ≤ c → rebuild B fuel t c = some t' →
      WF B t') := by
  intro fuel
  induction fuel using Nat.strong_induction_on with
  | _ fuel ih =>
    have hP : ∀ t k v t', WF B t → (∀ b ∈ k, b ≠ 0) →
        hasKeyB t k = false → insert_owned B fuel t k v = some t' →
        WF B t' := by
      intro t k v t' hwf hclean habs hins
      cases fuel with
      | zero => simp [insert_owned] at hins
      | succ f =>
        rw [insert_owned_succ] at hins
        cases hcp : cascade_place B t k v with
        | some t2 =>
          rw [hcp] at hins
          simp only [Option.some.injEq] at hins
          subst hins
          exact cascade_place_wf hB hwf hclean habs hcp
        | none =>
          rw [hcp] at hins
          cases hrb : rebuild B f t (t.total_capacity * 2) with
          | none => rw [hrb] at hins; simp at hins
          | some t2 =>
            rw [hrb] at hins
            have hcpos : 1 ≤ t.total_capacity * 2 := by
              have := hwf.1.2.2.2
              omega
            have hwf2 := (ih f (by omega)).2.2 t _ t2 hwf hcpos hrb
            have hRs := (ops_struct B f).2.2 t _ t2 hwf.1 hcpos hrb
            have habs2 : hasKeyB t2 k = false :=
              hasKeyB_false_of_perm hRs.2.1 habs
            exact (ih f (by omega)).1 t2 k v t' hwf2 hclean habs2 hins
    have hQ : ∀ es t t', WF B t →
        (∀ e ∈ es, ∀ b ∈ e.1, b ≠ 0) →
        es.Pairwise (fun e1 e2 => ¬ cstr e1.1 = cstr e2.1) →
        (∀ e ∈ es, hasKeyB t e.1 = false) →
        reinsert_all (insert_owned B fuel) es t = some t' → WF B t' := by
      intro es
      induction es with
      | nil =>
        intro t t' hwf _ _ _ h
        rw [reinsert_all] at h
        simp only [Option.some.injEq] at h
        subst h
        exact hwf
      | cons e es ihes =>
        obtain ⟨k, v⟩ := e
        intro t t' hwf hclean hpw habs h
        rw [reinsert_all] at h
        cases hio : insert_owned B fuel t k v with
        | none => rw [hio] at h; simp at h
        | some t1 =>
          rw [hio] at h
          have hcleank : ∀ b ∈ k, b ≠ 0 := hclean (k, v) (by simp)
          have habsk : hasKeyB t k = false := habs (k, v) (by simp)
          have hwf1 := hP t k v t1 hwf hcleank habsk hio
          have hPs := (ops_struct B fuel).1 t k v t1 hwf.1 hio
          refine ihes t1 t' hwf1 ?_ (List.pairwise_cons.mp hpw).2 ?_ h
          · intro e2 he2
            exact hclean e2 (by simp [he2])
          · intro e2 he2
            cases hh : hasKeyB t1 e2.1 with
            | false => rfl
            | true =>
              obtain ⟨e3, he3, hs3⟩ := hasKeyB_entries.mp hh
              have hmem := hPs.2.1.mem_iff.mp he3
              rcases List.mem_cons.mp hmem with heq3 | hmem2
              · subst heq3
                have hcd := (List.pairwise_cons.mp hpw).1 e2 he2
                exact absurd (strEqb_iff.mp hs3) hcd
              · have h2 : hasKeyB t e2.1 = true :=
                  hasKeyB_entries.mpr ⟨e3, hmem2, hs3⟩
                rw [habs e2 (by simp [he2])] at h2
                simp at h2
    have hR : ∀ t c t', WF B t → 1 ≤ c → rebuild B fuel t c = some t' →
        WF B t' := by
      intro t c t' hwf hc hrb
      rw [rebuild] at hrb
      refine hQ (extract_entries t) _ t' (fresh_table_wf B t hc) ?_ ?_ ?_ hrb
      · exact entries_clean hwf
      · exact entries_nodup hwf
      · intro e he
        cases hh : hasKeyB _ e.1 with
        | false => rfl
        | true =>
          obtain ⟨e2, he2, hs2⟩ := hasKeyB_entries.mp hh
          rw [extract_entries_fresh] at he2
          simp at he2
    exact ⟨hP, hQ, hR⟩

/-! ## The update-in-place branch at the key level -/

theorem slotAt_update_found {t : ElasticHashTable} {li i : Nat}
    {k0 v0 : List Nat} (v : List Nat)
    (hocc : slotAt t li i = .occupied k0 v0) (lj j : Nat) :
    slotAt (update_value t li i v) lj j =
      if lj = li ∧ j = i then .occupied k0 v else slotAt t lj j := by
  obtain ⟨hli, hi⟩ := slotAt_lt hocc
  have hocc' : (t.levels.getD li default).slots.getD i .empty =
      Slot.occupied k0 v0 := hocc
  have hli? : t.levels[li]? = some (t.levels.getD li default) := by
    rw [List.getElem?_eq_getElem hli, List.getD_eq_getElem _ _ hli]
  have hi? : (t.levels.getD li default).slots[i]? =
      some (Slot.occupied k0 v0) := by
    have h2 := hocc'
    rw [List.getD_eq_getElem _ _ hi] at h2
    rw [List.getElem?_eq_getElem hi, h2]
  unfold update_value slotAt
  simp only
  by_cases hlj : lj = li
  · subst hlj
    rw [listModify_getD_self _ default hli?]
    show (listModify (t.levels.getD lj default).slots i _).getD j .empty = _
    by_cases hj : j = i
    · subst hj
      rw [listModify_getD_self _ .empty hi?, if_pos ⟨rfl, rfl⟩]
    · rw [listModify_getD_ne _ _ (fun hh => hj hh.symm) _,
        if_neg (fun hc => hj hc.2)]
  · rw [listModify_getD_ne _ _ (fun hh => hlj hh.symm) _,
      if_neg (fun hc => hlj hc.1)]

theorem update_value_levels_getD {t : ElasticHashTable} {li : Nat}
    (hli : li < t.levels.length) (i : Nat) (v : List Nat) (lj : Nat) :
    (update_value t li i v).levels.getD lj default =
      if lj = li then
        { t.levels.getD li default with
          slots := listModify (t.levels.getD li default).slots i fun s =>
            match s with
            | .occupied k0 _ => .occupied k0 v
            | s => s }
      else t.levels.getD lj default := by
  have hli? : t.levels[li]? = some (t.levels.getD li default) := by
    rw [List.getElem?_eq_getElem hli, List.getD_eq_getElem _ _ hli]
  unfold update_value
  simp only
  by_cases hlj : lj = li
  · subst hlj
    rw [listModify_getD_self _ default hli?, if_pos rfl]
  · rw [listModify_getD_ne _ _ (fun hh => hlj hh.symm) _, if_neg hlj]

theorem Findable_congr_slots {B : Nat → Nat → Nat} {sub : SubArray}
    {slots' : List Slot}
    (hemp : ∀ p, slots'.getD p .empty = .empty ↔
      sub.slots.getD p .empty = .empty)
    {k : List Nat} {j : Nat} (hf : Findable B sub k j) :
    Findable B { sub with slots := slots' } k j := by
  obtain ⟨a, ha, hpos, hpre⟩ := hf
  exact ⟨a, ha, hpos, fun b hb hh => hpre b hb ((hemp _).mp hh)⟩

theorem update_slots_empty_iff (slots : List Slot) (i : Nat) (v : List Nat)
    (p : Nat) :
    (listModify slots i fun s =>
      match s with
      | .occupied k0 _ => Slot.occupied k0 v
      | s => s).getD p .empty = .empty ↔
      slots.getD p .empty = .empty := by
  by_cases hp : i = p
  · subst hp
    cases h : slots[i]? with
    | none =>
      unfold listModify
      rw [h]
    | some s =>
      rw [listModify_getD_self _ .empty h, getD_of_getElem? .empty h]
      cases s <;> simp
  · rw [listModify_getD_ne _ _ hp _]

theorem update_value_wf {B : Nat → Nat → Nat} {t : ElasticHashTable}
    {li i : Nat} {k0 v0 : List Nat} (v : List Nat) (hwf : WF B t)
    (hocc : slotAt t li i = .occupied k0 v0) :
    WF B (update_value t li i v) := by
  obtain ⟨hstruct, hkey⟩ := hwf
  obtain ⟨hli, hi⟩ := slotAt_lt hocc
  refine ⟨(update_value_struct t li i v hstruct).1, ?_⟩
  intro lj j k2 v2 hocc2
  rw [slotAt_update_found v hocc] at hocc2
  by_cases hc : lj = li ∧ j = i
  · rw [if_pos hc] at hocc2
    obtain ⟨hlje, hje⟩ := hc
    injection hocc2 with hk hv
    obtain ⟨hclean0, hfind0, huniq0⟩ := hkey li i k0 v0 hocc
    refine ⟨?_, ?_, ?_⟩
    · rw [← hk]
      exact hclean0
    · rw [update_value_levels_getD hli, if_pos hlje, ← hk, hje]
      exact Findable_congr_slots (fun p => update_slots_empty_iff _ i v p)
        hfind0
    · intro lj2 j2 k3 v3 hocc3 hc3
      rw [slotAt_update_found v hocc] at hocc3
      by_cases hc2 : lj2 = li ∧ j2 = i
      · exact ⟨hc2.1.trans hlje.symm, hc2.2.trans hje.symm⟩
      · rw [if_neg hc2] at hocc3
        have hc3' : cstr k3 = cstr k0 := by rw [hc3, ← hk]
        have hu := huniq0 lj2 j2 k3 v3 hocc3 hc3'
        exact ⟨hu.1.trans hlje.symm, hu.2.trans hje.symm⟩
  · rw [if_neg hc] at hocc2
    obtain ⟨hclean2, hfind2, huniq2⟩ := hkey lj j k2 v2 hocc2
    refine ⟨hclean2, ?_, ?_⟩
    · rw [update_value_levels_getD hli]
      by_cases hlj : lj = li
      · rw [if_pos hlj, ← hlj]
        exact Findable_congr_slots (fun p => update_slots_empty_iff _ i v p)
          hfind2
      · rw [if_neg hlj]
        exact hfind2
    · intro lj2 j2 k3 v3 hocc3 hc3
      rw [slotAt_update_found v hocc] at hocc3
      by_cases hc2 : lj2 = li ∧ j2 = i
      · rw [if_pos hc2] at hocc3
        injection hocc3 with hk3 hv3
        have hc3' : cstr k0 = cstr k2 := by rw [hk3, hc3]
        have hu := huniq2 li i k0 v0 hocc hc3'
        exact absurd ⟨hu.1.symm, hu.2.symm⟩ hc
      · rw [if_neg hc2] at hocc3
        exact huniq2 lj2 j2 k3 v3 hocc3 hc3

/-! ## `eht_insert` on an absent key -/

theorem fullBudget_mono : BudgetMono fullBudget := fun _ _ _ _ => le_refl _

theorem strEqb_cstr_right (a q : List Nat) :
    strEqb a (cstr q) = strEqb a q := by
  unfold strEqb
  rw [cstr_cstr]

theorem hasKeyB_cstr (t : ElasticHashTable) (q : List Nat) :
    hasKeyB t (cstr q) = hasKeyB t q := by
  cases hh : hasKeyB t q with
  | true =>
    obtain ⟨e, he, hs⟩ := hasKeyB_entries.mp hh
    exact hasKeyB_entries.mpr ⟨e, he, by rw [strEqb_cstr_right]; exact hs⟩
  | false =>
    cases hh2 : hasKeyB t (cstr q) with
    | false => rfl
    | true =>
      obtain ⟨e, he, hs⟩ := hasKeyB_entries.mp hh2
      rw [strEqb_cstr_right] at hs
      have h3 := hasKeyB_entries.mpr ⟨e, he, hs⟩
      rw [hh] at h3
      simp at h3

theorem extract_entries_create (c : Nat) :
    extract_entries (eht_create c) = [] := by
  unfold eht_create extract_entries
  simp only
  apply List.flatten_eq_nil_iff.mpr
  intro l hl
  rcases List.mem_map.mp hl with ⟨sub, hsub, rfl⟩
  unfold build_levels at hsub
  rcases List.mem_map.mp hsub with ⟨p, hp, rfl⟩
  apply List.filterMap_eq_nil_iff.mpr
  intro s hs
  rcases List.mem_replicate.mp hs with ⟨-, rfl⟩
  rfl

theorem eht_create_wf (B : Nat → Nat → Nat) (c : Nat) :
    WF B (eht_create c) := by
  refine ⟨(eht_create_struct c).1, ?_⟩
  intro li i k v hocc
  exfalso
  have hmem : ((k, v) : List Nat × List Nat) ∈ extract_entries (eht_create c) :=
    mem_extract_iff.mpr ⟨li, i, hocc⟩
  rw [extract_entries_create] at hmem
  simp at hmem

theorem guard_rebuild {B : Nat → Nat → Nat} (hB : BudgetMono B)
    {fuel : Nat} {t t1 : ElasticHashTable} {c : Nat} (hwf : WF B t)
    (hc : 1 ≤ c) (h : rebuild B fuel t c = some t1) :
    WF B t1 ∧ (extract_entries t1).Perm (extract_entries t) ∧
    t1.count = t.count ∧ t1.min_level_size = t.min_level_size ∧
    c ≤ t1.total_capacity := by
  have hs := (ops_struct B fuel).2.2 t c t1 hwf.1 hc h
  have hw := (ops_wf B hB fuel).2.2 t c t1 hwf hc h
  obtain ⟨j, hj⟩ := hs.2.2.2.2.1
  refine ⟨hw, hs.2.1, hs.2.2.1, hs.2.2.2.1, ?_⟩
  rw [hj]
  have h1 : 1 ≤ 2 ^ j := Nat.one_le_two_pow
  calc c = 1 * c := (Nat.one_mul c).symm
    _ ≤ 2 ^ j * c := Nat.mul_le_mul_right c h1

theorem owned_step {B : Nat → Nat → Nat} (hB : BudgetMono B)
    {fuel : Nat} {t t' : ElasticHashTable} {k v : List Nat} (hwf : WF B t)
    (hclean : ∀ b ∈ k, b ≠ 0) (habs : hasKeyB t k = false)
    (h : insert_owned B fuel t k v = some t') :
    WF B t' ∧ (extract_entries t').Perm ((k, v) :: extract_entries t) ∧
    t'.count = t.count + 1 ∧ t'.min_level_size = t.min_level_size ∧
    t.total_capacity ≤ t'.total_capacity := by
  have hs := (ops_struct B fuel).1 t k v t' hwf.1 h
  have hw := (ops_wf B hB fuel).1 t k v t' hwf hclean habs h
  obtain ⟨j, hj⟩ := hs.2.2.2.2.1
  refine ⟨hw, hs.2.1, hs.2.2.1, hs.2.2.2.1, ?_⟩
  rw [hj]
  have h1 : 1 ≤ 2 ^ j := Nat.one_le_two_pow
  calc t.total_capacity = 1 * t.total_capacity :=
      (Nat.one_mul _).symm
    _ ≤ 2 ^ j * t.total_capacity := Nat.mul_le_mul_right _ h1

theorem insert_tail {B : Nat → Nat → Nat} (hB : BudgetMono B)
    {fuel : Nat} {t1 t' : ElasticHashTable} {key value : List Nat}
    (hwf1 : WF B t1) (habs1 : hasKeyB t1 key = false)
    (hins :
      (match (if tomb_threshold t1.total_capacity ≤ total_tombstones t1
              then rebuild B fuel t1 t1.total_capacity else some t1) with
       | none => none
       | some t2 => insert_owned B fuel t2 (cstr key) value) = some t') :
    WF B t' ∧
    (extract_entries t').Perm ((cstr key, value) :: extract_entries t1) ∧
    t'.count = t1.count + 1 ∧ t'.min_level_size = t1.min_level_size ∧
    t1.total_capacity ≤ t'.total_capacity := by
  have hcleanc : ∀ b ∈ cstr key, b ≠ 0 := fun b hb => cstr_ne_zero hb
  by_cases htomb : tomb_threshold t1.total_capacity ≤ total_tombstones t1
  · rw [if_pos htomb] at hins
    cases hrb2 : rebuild B fuel t1 t1.total_capacity with
    | none => rw [hrb2] at hins; simp at hins
    | some t2 =>
      rw [hrb2] at hins
      have hcap1 : 1 ≤ t1.total_capacity := hwf1.1.2.2.2
      obtain ⟨hwf2, hperm2, hcnt2, hmin2, hcap2⟩ :=
        guard_rebuild hB hwf1 hcap1 hrb2
      have habs2 : hasKeyB t2 (cstr key) = false := by
        rw [hasKeyB_cstr]
        exact hasKeyB_false_of_perm hperm2 habs1
      obtain ⟨hwf', hperm', hcnt', hmin', hcap'⟩ :=
        owned_step hB hwf2 hcleanc habs2 hins
      refine ⟨hwf', hperm'.trans (hperm2.cons _), by omega,
        by rw [hmin', hmin2], by omega⟩
  · rw [if_neg htomb] at hins
    have habs1' : hasKeyB t1 (cstr key) = false := by
      rw [hasKeyB_cstr]
      exact habs1
    exact owned_step hB hwf1 hcleanc habs1' hins

theorem eht_insert_absent {B : Nat → Nat → Nat} (hB : BudgetMono B)
    {fuel : Nat} {t t' : ElasticHashTable} {key value : List Nat}
    (hwf : WF B t) (habs : hasKeyB t key = false)
    (hins : eht_insert B fuel t key value = some t') :
    WF B t' ∧
    (extract_entries t').Perm ((cstr key, value) :: extract_entries t) ∧
    t'.count = t.count + 1 ∧
    t'.min_level_size = t.min_level_size ∧
    t.total_capacity ≤ t'.total_capacity ∧
    (load_threshold t.total_capacity ≤ t.count →
      2 * t.total_capacity ≤ t'.total_capacity) := by
  unfold eht_insert at hins
  rw [find_key_none_of_absent habs] at hins
  by_cases hload : load_threshold t.total_capacity ≤ t.count
  · rw [if_pos hload] at hins
    cases hrb1 : rebuild B fuel t (t.total_capacity * 2) with
    | none => rw [hrb1] at hins; simp at hins
    | some t1 =>
      rw [hrb1] at hins
      have hcap_pos : 1 ≤ t.total_capacity := hwf.1.2.2.2
      obtain ⟨hwf1, hperm1, hcnt1, hmin1, hcap1⟩ :=
        guard_rebuild hB hwf (by omega) hrb1
      have habs1 : hasKeyB t1 key = false :=
        hasKeyB_false_of_perm hperm1 habs
      obtain ⟨hwf', hperm', hcnt', hmin', hcap'⟩ :=
        insert_tail hB hwf1 habs1 hins
      refine ⟨hwf', hperm'.trans (hperm1.cons _), by omega,
        by rw [hmin', hmin1], by omega, fun _ => by omega⟩
  · rw [if_neg hload] at hins
    have hcap_pos : 1 ≤ t.total_capacity := hwf.1.2.2.2
    obtain ⟨hwf', hperm', hcnt', hmin', hcap'⟩ :=
      insert_tail hB hwf habs hins
    exact ⟨hwf', hperm', hcnt', hmin', hcap', fun hl => absurd hl hload⟩

/-! ## Retrieval after a successful insert -/

theorem absent_of_find_none {B : Nat → Nat → Nat} {t : ElasticHashTable}
    {q : List Nat} (hwf : WF B t) (hfind : find_key B t q = none) :
    hasKeyB t q = false := by
  cases hh : hasKeyB t q with
  | false => rfl
  | true =>
    obtain ⟨lj, j, k2, v2, hocc2, hs2⟩ := hasKeyB_iff.mp hh
    have h2 := find_key_complete hwf hocc2 (strEqb_iff.mp hs2).symm
    rw [hfind] at h2
    simp at h2

theorem eht_get_eq {B : Nat → Nat → Nat} {t : ElasticHashTable}
    {q : List Nat} {li i : Nat} (hfind : find_key B t q = some (li, i)) :
    eht_get B t q =
      match (t.levels.getD li default).slots.getD i .empty with
      | .occupied _ v => some v
      | _ => none := by
  unfold eht_get
  rw [hfind]

theorem get_of_slot {B : Nat → Nat → Nat} {t : ElasticHashTable}
    {q k v : List Nat} {li i : Nat} (hwf : WF B t)
    (hocc : slotAt t li i = .occupied k v) (hq : cstr q = cstr k) :
    eht_get B t q = some v ∧ eht_contains B t q = 1 := by
  have hfind := find_key_complete hwf hocc hq
  refine ⟨?_, ?_⟩
  · rw [eht_get_eq hfind]
    have hg : (t.levels.getD li default).slots.getD i .empty =
        Slot.occupied k v := hocc
    rw [hg]
  · unfold eht_contains
    rw [hfind]

/-- C1: on every well-formed table, if `eht_insert t key value` succeeds,
an immediately following `eht_get t' key` returns exactly the inserted
value bytes and `eht_contains t' key` returns 1 (both on the update-in-
place path and on the fresh-insert path, including any rebuilds the
insert performs). -/
theorem C1_insert_then_get (B : Nat → Nat → Nat) (hB : BudgetMono B)
    (fuel : Nat) (t t' : ElasticHashTable) (key value : List Nat)
    (hwf : WF B t) (h : eht_insert B fuel t key value = some t') :
    eht_get B t' key = some value ∧ eht_contains B t' key = 1 := by
  cases hfind : find_key B t key with
  | some p =>
    obtain ⟨li, i⟩ := p
    obtain ⟨k0, v0, hocc, hs⟩ := find_key_sound hfind
    have ht' : t' = update_value t li i value := by
      unfold eht_insert at h
      rw [hfind] at h
      simp only [Option.some.injEq] at h
      exact h.symm
    have hwf' : WF B (update_value t li i value) :=
      update_value_wf value hwf hocc
    have hocc' : slotAt (update_value t li i value) li i =
        .occupied k0 value := by
      rw [slotAt_update_found value hocc, if_pos ⟨rfl, rfl⟩]
    rw [ht']
    exact get_of_slot hwf' hocc' (strEqb_iff.mp hs).symm
  | none =>
    have habs : hasKeyB t key = false := absent_of_find_none hwf hfind
    obtain ⟨hwf', hperm, -, -, -, -⟩ := eht_insert_absent hB hwf habs h
    have hmem : ((cstr key, value) : List Nat × List Nat) ∈
        extract_entries t' :=
      hperm.mem_iff.mpr (List.mem_cons_self _ _)
    obtain ⟨li, i, hocc⟩ := mem_extract_iff.mp hmem
    exact get_of_slot hwf' hocc (cstr_cstr key).symm

/-- Witness for C1: inserting key `[1]` with value `[2]` into the fresh
table `eht_create 64` succeeds, and `eht_get`/`eht_contains` then return
`some [2]` and `1`. -/
theorem C1_witness :
    eht_insert fullBudget 2 (eht_create 64) [1] [2] =
      some ((eht_insert fullBudget 2 (eht_create 64) [1] [2]).getD
        (eht_create 64)) ∧
    eht_get fullBudget ((eht_insert fullBudget 2 (eht_create 64) [1]
      [2]).getD (eht_create 64)) [1] = some [2] ∧
    eht_contains fullBudget ((eht_insert fullBudget 2 (eht_create 64) [1]
      [2]).getD (eht_create 64)) [1] = 1 :=
  ⟨by decide,
   C1_insert_then_get fullBudget fullBudget_mono 2 (eht_create 64)
     ((eht_insert fullBudget 2 (eht_create 64) [1] [2]).getD
       (eht_create 64)) [1] [2] (eht_create_wf fullBudget 64) (by decide)⟩

/-! ## The load guard grows the table and preserves every entry -/

theorem t1s_slot {li i : Nat} {k v : List Nat}
    (h : slotAt t1s li i = .occupied k v) :
    li = 0 ∧ i = 0 ∧ k = [2] ∧ v = [9] := by
  cases li with
  | zero =>
    cases i with
    | zero =>
      have h2 : Slot.occupied [2] [9] = Slot.occupied k v := h
      injection h2 with hk hv
      exact ⟨rfl, rfl, hk.symm, hv.symm⟩
    | succ j =>
      have h2 : Slot.empty = Slot.occupied k v := h
      simp at h2
  | succ l =>
    have h2 : Slot.empty = Slot.occupied k v := h
    simp at h2

theorem t1s_wf : WF fullBudget t1s := by
  constructor
  · unfold StructWF LevelOK numOcc numTomb t1s
    refine ⟨?_, by decide, by decide, by decide⟩
    decide
  · intro li i k v hocc
    obtain ⟨hli, hi, hk, hv⟩ := t1s_slot hocc
    subst hli
    subst hi
    subst hk
    subst hv
    refine ⟨by decide, ?_, ?_⟩
    · refine ⟨0, by decide, by decide, ?_⟩
      intro b hb
      exact absurd hb (Nat.not_lt_zero b)
    · intro lj j k2 v2 hocc2 hc2
      obtain ⟨hlj, hj, -, -⟩ := t1s_slot hocc2
      exact ⟨hlj, hj⟩

/-- C2: on a well-formed table whose live count has reached the load
threshold (`count ≥ 0.90 · total_capacity`), a successful insert of a
fresh key yields a table whose total capacity is at least twice the
prior total capacity, and every entry present before the insert is still
retrievable by `eht_get` with its original value. -/
theorem C2_load_rebuild (B : Nat → Nat → Nat) (hB : BudgetMono B)
    (fuel : Nat) (t t' : ElasticHashTable) (key value : List Nat)
    (hwf : WF B t) (habs : hasKeyB t key = false)
    (hload : load_threshold t.total_capacity ≤ t.count)
    (h : eht_insert B fuel t key value = some t') :
    2 * t.total_capacity ≤ t'.total_capacity ∧
    ∀ k0 v0, (k0, v0) ∈ extract_entries t →
      eht_get B t' k0 = some v0 := by
  obtain ⟨hwf', hperm, -, -, -, hgrow⟩ := eht_insert_absent hB hwf habs h
  refine ⟨hgrow hload, ?_⟩
  intro k0 v0 hmem
  have hmem' : ((k0, v0) : List Nat × List Nat) ∈ extract_entries t' :=
    hperm.mem_iff.mpr (List.mem_cons_of_mem _ hmem)
  obtain ⟨li, i, hocc⟩ := mem_extract_iff.mp hmem'
  exact (get_of_slot hwf' hocc rfl).1

/-- Witness for C2: the saturated one-slot table `t1s` (count 1 ≥
threshold 0) grows to capacity 2 ≥ 2·1 when the fresh key `[1]` is
inserted, and its prior entry `[2] ↦ [9]` is still retrievable. -/
theorem C2_witness :
    hasKeyB t1s [1] = false ∧
    load_threshold t1s.total_capacity ≤ t1s.count ∧
    eht_insert fullBudget 3 t1s [1] [7] =
      some ((eht_insert fullBudget 3 t1s [1] [7]).getD t1s) ∧
    (2 * t1s.total_capacity ≤
        ((eht_insert fullBudget 3 t1s [1] [7]).getD t1s).total_capacity ∧
      ∀ k0 v0, (k0, v0) ∈ extract_entries t1s →
        eht_get fullBudget ((eht_insert fullBudget 3 t1s [1] [7]).getD t1s)
          k0 = some v0) :=
  ⟨by decide, by decide, by decide,
   C2_load_rebuild fullBudget fullBudget_mono 3 t1s
     ((eht_insert fullBudget 3 t1s [1] [7]).getD t1s) [1] [7]
     t1s_wf (by decide) (by decide) (by decide)⟩

/-! ## Double insert of one key: overwrite semantics -/

/-- C3 as stated is false: it quantifies over every table and key, but if
the key is already present before the two inserts, `len` increases by 0
over the two inserts, not by 1.  Concretely: insert `[1] ↦ [5]` into
`eht_create 64` (len becomes 1), then run the two inserts `[1] ↦ [6]`
and `[1] ↦ [7]`; `eht_get` returns the last value but `len` is still 1
after both, an increase of 0 over the two inserts. -/
theorem C3_counterexample :
    ((eht_insert fullBudget 2 (eht_create 64) [1] [5]).bind fun t =>
      (eht_insert fullBudget 2 t [1] [6]).bind fun t1 =>
      (eht_insert fullBudget 2 t1 [1] [7]).map fun t2 =>
        (eht_len t, eht_len t2, eht_get fullBudget t2 [1])) =
      some (1, 1, some [7]) := by decide

/-- C3 (amended): if the key is absent before the first of the two
inserts, then after `insert key v1; insert key v2` on a well-formed
table, `eht_get` returns `v2`, `len` has increased by exactly 1 over the
two inserts, and the second insert is an in-place overwrite that changes
no counter: table count, every level count, every level tombstone
counter, and the total capacity are unchanged by it. -/
theorem C3_amended (B : Nat → Nat → Nat) (hB : BudgetMono B)
    (fuel : Nat) (t t1 t2 : ElasticHashTable) (key v1 v2 : List Nat)
    (hwf : WF B t) (habs : hasKeyB t key = false)
    (h1 : eht_insert B fuel t key v1 = some t1)
    (h2 : eht_insert B fuel t1 key v2 = some t2) :
    eht_get B t2 key = some v2 ∧
    eht_len t2 = eht_len t + 1 ∧
    eht_len t2 = eht_len t1 ∧
    t2.levels.map (fun sub => sub.count) =
      t1.levels.map (fun sub => sub.count) ∧
    t2.levels.map (fun sub => sub.tombstones) =
      t1.levels.map (fun sub => sub.tombstones) ∧
    t2.total_capacity = t1.total_capacity := by
  obtain ⟨hwf1, hperm1, hcnt1, -, -, -⟩ := eht_insert_absent hB hwf habs h1
  have hmem : ((cstr key, v1) : List Nat × List Nat) ∈ extract_entries t1 :=
    hperm1.mem_iff.mpr (List.mem_cons_self _ _)
  obtain ⟨li, i, hocc⟩ := mem_extract_iff.mp hmem
  have hfind1 : find_key B t1 key = some (li, i) :=
    find_key_complete hwf1 hocc (cstr_cstr key).symm
  have ht2 : t2 = update_value t1 li i v2 := by
    unfold eht_insert at h2
    rw [hfind1] at h2
    simp only [Option.some.injEq] at h2
    exact h2.symm
  have hwf2 : WF B (update_value t1 li i v2) := update_value_wf v2 hwf1 hocc
  have hocc2 : slotAt (update_value t1 li i v2) li i =
      .occupied (cstr key) v2 := by
    rw [slotAt_update_found v2 hocc, if_pos ⟨rfl, rfl⟩]
  have hus := update_value_struct t1 li i v2 hwf1.1
  rw [ht2]
  refine ⟨(get_of_slot hwf2 hocc2 (cstr_cstr key).symm).1, ?_, ?_,
    hus.2.2.2.2.2.1, hus.2.2.2.2.2.2.1, hus.2.2.1⟩
  · show (update_value t1 li i v2).count = t.count + 1
    rw [hus.2.1]
    omega
  · show (update_value t1 li i v2).count = t1.count
    exact hus.2.1

/-- Witness for the amended C3: key `[1]` absent in `eht_create 64`,
inserted with `[5]` then `[6]`; get returns `[6]`, len goes 0 → 1 → 1,
and the second insert changes no counter. -/
theorem C3_amended_witness :
    hasKeyB (eht_create 64) [1] = false ∧
    (eht_get fullBudget insB [1] = some [6] ∧
      eht_len insB = eht_len (eht_create 64) + 1 ∧
      eht_len insB = eht_len insA ∧
      insB.levels.map (fun sub => sub.count) =
        insA.levels.map (fun sub => sub.count) ∧
      insB.levels.map (fun sub => sub.tombstones) =
        insA.levels.map (fun sub => sub.tombstones) ∧
      insB.total_capacity = insA.total_capacity) :=
  ⟨by decide,
   C3_amended fullBudget fullBudget_mono 2 (eht_create 64) insA insB
     [1] [5] [6] (eht_create_wf fullBudget 64) (by decide) (by decide)
     (by decide)⟩

/-! ## Delete of a present key at the key level -/

theorem eht_delete_found {B : Nat → Nat → Nat} {t : ElasticHashTable}
    {q : List Nat} {li i : Nat} (hfind : find_key B t q = some (li, i)) :
    (eht_delete B t q).1 = 1 ∧
    (eht_delete B t q).2 = { t with
      count := t.count - 1
      levels := listModify t.levels li fun sub =>
        { sub with
          slots := sub.slots.set i .tombstone
          count := sub.count - 1
          tombstones := sub.tombstones + 1 } } := by
  unfold eht_delete
  rw [hfind]
  exact ⟨rfl, rfl⟩

theorem slotAt_delete {t : ElasticHashTable} {li i : Nat}
    {k0 v0 : List Nat} (hocc : slotAt t li i = .occupied k0 v0)
    (lj j : Nat) :
    slotAt { t with
      count := t.count - 1
      levels := listModify t.levels li fun sub =>
        { sub with
          slots := sub.slots.set i .tombstone
          count := sub.count - 1
          tombstones := sub.tombstones + 1 } } lj j =
      if lj = li ∧ j = i then .tombstone else slotAt t lj j := by
  obtain ⟨hli, hi⟩ := slotAt_lt hocc
  have hli? : t.levels[li]? = some (t.levels.getD li default) := by
    rw [List.getElem?_eq_getElem hli, List.getD_eq_getElem _ _ hli]
  unfold slotAt
  simp only
  by_cases hlj : lj = li
  · subst hlj
    rw [listModify_getD_self _ default hli?]
    show ((t.levels.getD lj default).slots.set i .tombstone).getD j
      .empty = _
    by_cases hj : j = i
    · subst hj
      rw [getD_set_self hi, if_pos ⟨rfl, rfl⟩]
    · rw [getD_set_ne _ (fun hh => hj hh.symm), if_neg (fun hc => hj hc.2)]
  · rw [listModify_getD_ne _ _ (fun hh => hlj hh.symm) _,
      if_neg (fun hc => hlj hc.1)]

theorem delete_levels_getD {t : ElasticHashTable} {li : Nat}
    (hli : li < t.levels.length) (i lj : Nat) :
    ({ t with
      count := t.count - 1
      levels := listModify t.levels li fun sub =>
        { sub with
          slots := sub.slots.set i .tombstone
          count := sub.count - 1
          tombstones := sub.tombstones + 1 } } :
        ElasticHashTable).levels.getD lj default =
      if lj = li then
        { t.levels.getD li default with
          slots := (t.levels.getD li default).slots.set i .tombstone
          count := (t.levels.getD li default).count - 1
          tombstones := (t.levels.getD li default).tombstones + 1 }
      else t.levels.getD lj default := by
  have hli? : t.levels[li]? = some (t.levels.getD li default) := by
    rw [List.getElem?_eq_getElem hli, List.getD_eq_getElem _ _ hli]
  simp only
  by_cases hlj : lj = li
  · subst hlj
    rw [listModify_getD_self _ default hli?, if_pos rfl]
  · rw [listModify_getD_ne _ _ (fun hh => hlj hh.symm) _, if_neg hlj]

theorem probePos_level_cap {sub sub' : SubArray}
    (hlevel : sub'.level = sub.level)
    (hcap : sub'.capacity = sub.capacity) (k : List Nat) (a : Nat) :
    probePos k sub' a = probePos k sub a := by
  unfold probePos
  rw [hlevel, hcap]

theorem Findable_transfer {B : Nat → Nat → Nat} {sub : SubArray}
    {k : List Nat} {j : Nat} (hf : Findable B sub k j) {sub' : SubArray}
    (hlevel : sub'.level = sub.level) (hcap : sub'.capacity = sub.capacity)
    (hbud : budgetOf B sub ≤ budgetOf B sub')
    (hemp : ∀ p, sub'.slots.getD p .empty = .empty →
      sub.slots.getD p .empty = .empty) :
    Findable B sub' k j := by
  obtain ⟨a, ha, hpos, hpre⟩ := hf
  refine ⟨a, lt_of_lt_of_le ha hbud, ?_, ?_⟩
  · rw [probePos_level_cap hlevel hcap]
    exact hpos
  · intro b hb hh
    rw [probePos_level_cap hlevel hcap] at hh
    exact hpre b hb (hemp _ hh)

theorem delete_empty_transfer {slots : List Slot} {i : Nat}
    (hi : i < slots.length) (p : Nat)
    (h : (slots.set i .tombstone).getD p .empty = .empty) :
    slots.getD p .empty = .empty := by
  by_cases hp : i = p
  · subst hp
    rw [getD_set_self hi] at h
    simp at h
  · rw [getD_set_ne _ hp] at h
    exact h

theorem eht_delete_wf {B : Nat → Nat → Nat} {t : ElasticHashTable}
    (q : List Nat) (hwf : WF B t) :
    WF B (eht_delete B t q).2 ∧ hasKeyB (eht_delete B t q).2 q = false ∧
    ((eht_delete B t q).1 = 1 ↔ hasKeyB t q = true) := by
  cases hfind : find_key B t q with
  | none =>
    rw [eht_delete_not_found hfind]
    refine ⟨hwf, absent_of_find_none hwf hfind, ?_⟩
    constructor
    · intro h0
      simp at h0
    · intro hk
      rw [absent_of_find_none hwf hfind] at hk
      simp at hk
  | some p =>
    obtain ⟨li, i⟩ := p
    obtain ⟨k0, v0, hocc, hs⟩ := find_key_sound hfind
    obtain ⟨hli, hi⟩ := slotAt_lt hocc
    obtain ⟨hD1, hD2⟩ := eht_delete_found hfind
    have hlevmem : t.levels.getD li default ∈ t.levels := by
      rw [List.getD_eq_getElem _ _ hli]
      exact List.getElem_mem hli
    have hlev : LevelOK (t.levels.getD li default) := hwf.1.1 _ hlevmem
    have hcnt_pos : 1 ≤ (t.levels.getD li default).count := by
      rw [hlev.2.2.1]
      exact numOcc_pos hocc
    refine ⟨⟨(eht_delete_struct q hwf.1).1, ?_⟩, ?_, ?_⟩
    · intro lj j k2 v2 hocc2
      rw [hD2, slotAt_delete hocc] at hocc2
      by_cases hc : lj = li ∧ j = i
      · rw [if_pos hc] at hocc2
        simp at hocc2
      · rw [if_neg hc] at hocc2
        obtain ⟨hclean2, hfind2, huniq2⟩ := hwf.2 lj j k2 v2 hocc2
        refine ⟨hclean2, ?_, ?_⟩
        · rw [hD2, delete_levels_getD hli]
          by_cases hlj : lj = li
          · rw [if_pos hlj]
            rw [hlj] at hfind2
            refine Findable_transfer hfind2 rfl rfl (le_of_eq ?_) ?_
            · show B ((t.levels.getD li default).count +
                  (t.levels.getD li default).tombstones)
                  (t.levels.getD li default).capacity =
                B (((t.levels.getD li default).count - 1) +
                  ((t.levels.getD li default).tombstones + 1))
                  (t.levels.getD li default).capacity
              congr 1
              omega
            · intro p hp
              exact delete_empty_transfer hi p hp
          · rw [if_neg hlj]
            exact hfind2
        · intro lj2 j2 k3 v3 hocc3 hc3
          rw [hD2, slotAt_delete hocc] at hocc3
          by_cases hc2 : lj2 = li ∧ j2 = i
          · rw [if_pos hc2] at hocc3
            simp at hocc3
          · rw [if_neg hc2] at hocc3
            exact huniq2 lj2 j2 k3 v3 hocc3 hc3
    · cases hh : hasKeyB (eht_delete B t q).2 q with
      | false => rfl
      | true =>
        exfalso
        obtain ⟨lj, j, k2, v2, hocc2, hs2⟩ := hasKeyB_iff.mp hh
        rw [hD2, slotAt_delete hocc] at hocc2
        by_cases hc : lj = li ∧ j = i
        · rw [if_pos hc] at hocc2
          simp at hocc2
        · rw [if_neg hc] at hocc2
          have hc3 : cstr k2 = cstr k0 := by
            rw [strEqb_iff.mp hs2, ← strEqb_iff.mp hs]
          have hu := (hwf.2 li i k0 v0 hocc).2.2 lj j k2 v2 hocc2 hc3
          exact hc ⟨hu.1, hu.2⟩
    · rw [hD1]
      constructor
      · intro _
        exact hasKeyB_iff.mpr ⟨li, i, k0, v0, hocc, hs⟩
      · intro _
        rfl

theorem eht_get_none {B : Nat → Nat → Nat} {t : ElasticHashTable}
    {q : List Nat} (h : find_key B t q = none) : eht_get B t q = none := by
  unfold eht_get
  rw [h]

theorem eht_contains_none {B : Nat → Nat → Nat} {t : ElasticHashTable}
    {q : List Nat} (h : find_key B t q = none) : eht_contains B t q = 0 := by
  unfold eht_contains
  rw [h]

/-- C4: on a well-formed table, after inserting a previously absent key
and then deleting it, `eht_get` reports not found, `eht_contains`
returns 0, and `eht_len` is back to its pre-insert value; the delete
itself returns 1, marks the key's slot Tombstone, decrements that
level's count, increments that level's tombstones, and decrements the
table count; and on every well-formed table `eht_delete` returns 1
exactly when the key is present. -/
theorem C4_insert_delete (B : Nat → Nat → Nat) (hB : BudgetMono B)
    (fuel : Nat) (t t' : ElasticHashTable) (key value : List Nat)
    (hwf : WF B t) (habs : hasKeyB t key = false)
    (h : eht_insert B fuel t key value = some t') :
    (eht_delete B t' key).1 = 1 ∧
    eht_get B (eht_delete B t' key).2 key = none ∧
    eht_contains B (eht_delete B t' key).2 key = 0 ∧
    eht_len (eht_delete B t' key).2 = eht_len t ∧
    (∃ li i,
      find_key B t' key = some (li, i) ∧
      slotAt t' li i = .occupied (cstr key) value ∧
      slotAt (eht_delete B t' key).2 li i = .tombstone ∧
      ((eht_delete B t' key).2.levels.getD li default).count + 1 =
        (t'.levels.getD li default).count ∧
      ((eht_delete B t' key).2.levels.getD li default).tombstones =
        (t'.levels.getD li default).tombstones + 1 ∧
      (eht_delete B t' key).2.count + 1 = t'.count) ∧
    (∀ u : ElasticHashTable, WF B u →
      ((eht_delete B u key).1 = 1 ↔ hasKeyB u key = true)) := by
  obtain ⟨hwf', hperm, hcnt, -, -, -⟩ := eht_insert_absent hB hwf habs h
  have hmem : ((cstr key, value) : List Nat × List Nat) ∈
      extract_entries t' :=
    hperm.mem_iff.mpr (List.mem_cons_self _ _)
  obtain ⟨li, i, hocc⟩ := mem_extract_iff.mp hmem
  have hocc' : slotAt t' li i = .occupied (cstr key) value := hocc
  have hfind' : find_key B t' key = some (li, i) :=
    find_key_complete hwf' hocc' (cstr_cstr key).symm
  obtain ⟨hli, hi⟩ := slotAt_lt hocc'
  obtain ⟨hD1, hD2⟩ := eht_delete_found hfind'
  obtain ⟨hwfD, habsD, hiffD⟩ := eht_delete_wf key hwf'
  have hlevmem : t'.levels.getD li default ∈ t'.levels := by
    rw [List.getD_eq_getElem _ _ hli]
    exact List.getElem_mem hli
  have hlev : LevelOK (t'.levels.getD li default) := hwf'.1.1 _ hlevmem
  have hcnt_pos : 1 ≤ (t'.levels.getD li default).count := by
    rw [hlev.2.2.1]
    exact numOcc_pos hocc'
  have hfindD : find_key B (eht_delete B t' key).2 key = none :=
    find_key_none_of_absent habsD
  refine ⟨hD1, eht_get_none hfindD, eht_contains_none hfindD, ?_, ?_, ?_⟩
  · show (eht_delete B t' key).2.count = t.count
    rw [hD2]
    show t'.count - 1 = t.count
    omega
  · refine ⟨li, i, hfind', hocc', ?_, ?_, ?_, ?_⟩
    · rw [hD2, slotAt_delete hocc', if_pos ⟨rfl, rfl⟩]
    · rw [hD2, delete_levels_getD hli, if_pos rfl]
      show ((t'.levels.getD li default).count - 1) + 1 = _
      omega
    · rw [hD2, delete_levels_getD hli, if_pos rfl]
    · rw [hD2]
      show (t'.count - 1) + 1 = t'.count
      omega
  · intro u hwfu
    exact (eht_delete_wf key hwfu).2.2

/-- Witness for C4: key `[1]` (absent in `eht_create 64`) is inserted
with value `[2]` and then deleted; delete returns 1, get and contains
report absence, and the length is back to 0. -/
theorem C4_witness :
    hasKeyB (eht_create 64) [1] = false ∧
    ((eht_delete fullBudget ((eht_insert fullBudget 2 (eht_create 64)
        [1] [2]).getD (eht_create 64)) [1]).1 = 1 ∧
      eht_get fullBudget (eht_delete fullBudget ((eht_insert fullBudget 2
        (eht_create 64) [1] [2]).getD (eht_create 64)) [1]).2 [1] =
        none ∧
      eht_contains fullBudget (eht_delete fullBudget ((eht_insert
        fullBudget 2 (eht_create 64) [1] [2]).getD (eht_create 64))
        [1]).2 [1] = 0 ∧
      eht_len (eht_delete fullBudget ((eht_insert fullBudget 2
        (eht_create 64) [1] [2]).getD (eht_create 64)) [1]).2 =
        eht_len (eht_create 64)) :=
  ⟨by decide,
    have hC4 := C4_insert_delete fullBudget fullBudget_mono 2
      (eht_create 64)
      ((eht_insert fullBudget 2 (eht_create 64) [1] [2]).getD
        (eht_create 64)) [1] [2] (eht_create_wf fullBudget 64)
      (by decide) (by decide)
    ⟨hC4.1, hC4.2.1, hC4.2.2.1, hC4.2.2.2.1⟩⟩

/-! ## The find cascade agrees with its specification-side description -/

theorem find_slot_eq_spec (sub : SubArray) (q : List Nat) :
    ∀ n a,
      find_slot sub.slots sub.capacity q (dual_hash q sub.level).1
        (dual_hash q sub.level).2 n a =
      (match (List.range' a n).find? (specStop sub q) with
       | some a' =>
         match sub.slots.getD (probePos q sub a') .empty with
         | .occupied _ _ => some (probePos q sub a')
         | _ => none
       | none => none) := by
  intro n
  induction n with
  | zero => intro a; rfl
  | succ n ih =>
    intro a
    rw [List.range'_succ]
    show (match sub.slots.getD (probePos q sub a) .empty with
      | .occupied k _ =>
        if strEqb k q then some (probePos q sub a)
        else find_slot sub.slots sub.capacity q (dual_hash q sub.level).1
          (dual_hash q sub.level).2 n (a + 1)
      | .empty => none
      | .tombstone => find_slot sub.slots sub.capacity q
          (dual_hash q sub.level).1 (dual_hash q sub.level).2
          n (a + 1)) = _
    cases hslot : sub.slots.getD (probePos q sub a) .empty with
    | empty =>
      have hstop : specStop sub q a = true := by
        unfold specStop
        rw [hslot]
      rw [List.find?_cons_of_pos _ hstop]
      show none = match sub.slots.getD (probePos q sub a) .empty with
        | .occupied _ _ => some (probePos q sub a)
        | _ => none
      rw [hslot]
    | tombstone =>
      have hstop : specStop sub q a = false := by
        unfold specStop
        rw [hslot]
      rw [List.find?_cons_of_neg _ (by simp [hstop])]
      exact ih (a + 1)
    | occupied k v =>
      cases hkq : strEqb k q with
      | true =>
        have hstop : specStop sub q a = true := by
          unfold specStop
          rw [hslot]
          exact hkq
        rw [List.find?_cons_of_pos _ hstop]
        show (if strEqb k q = true then some (probePos q sub a)
          else find_slot sub.slots sub.capacity q (dual_hash q sub.level).1
            (dual_hash q sub.level).2 n (a + 1)) =
          match sub.slots.getD (probePos q sub a) .empty with
          | .occupied _ _ => some (probePos q sub a)
          | _ => none
        rw [if_pos hkq, hslot]
      | false =>
        have hstop : specStop sub q a = false := by
          unfold specStop
          rw [hslot]
          exact hkq
        rw [List.find?_cons_of_neg _ (by simp [hstop])]
        show (if strEqb k q = true then some (probePos q sub a)
          else find_slot sub.slots sub.capacity q (dual_hash q sub.level).1
            (dual_hash q sub.level).2 n (a + 1)) = _
        rw [if_neg (by simp [hkq])]
        exact ih (a + 1)

theorem scan_level_eq_spec {B : Nat → Nat → Nat} {sub : SubArray}
    (q : List Nat) (hcnt : sub.count = numOcc sub.slots) :
    scan_level B sub q = scan_spec B sub q := by
  unfold scan_level scan_spec
  by_cases h0 : sub.count = 0
  · rw [if_pos h0]
    have hnoocc : ∀ p k v,
        sub.slots.getD p .empty = .occupied k v → False := by
      intro p k v hp
      have := numOcc_pos hp
      omega
    cases hfind : (List.range (budgetOf B sub)).find? (specStop sub q) with
    | none => rfl
    | some a =>
      show none = match sub.slots.getD (probePos q sub a) .empty with
        | .occupied _ _ => some (probePos q sub a)
        | _ => none
      cases hslot : sub.slots.getD (probePos q sub a) .empty with
      | empty => rfl
      | tombstone => rfl
      | occupied k v => exact (hnoocc _ k v hslot).elim
  · rw [if_neg h0, List.range_eq_range']
    exact find_slot_eq_spec sub q (budgetOf B sub) 0

theorem find_levels_eq_spec (B : Nat → Nat → Nat) (q : List Nat) :
    ∀ (ls : List SubArray) (li : Nat),
      (∀ sub ∈ ls, sub.count = numOcc sub.slots) →
      find_levels B q ls li =
        (ls.enumFrom li).findSome? fun p =>
          (scan_spec B p.2 q).map (fun i => (p.1, i)) := by
  intro ls
  induction ls with
  | nil => intro li h; rfl
  | cons sub rest ih =>
    intro li h
    rw [List.enumFrom_cons, List.findSome?_cons]
    show (match scan_level B sub q with
      | some i => some (li, i)
      | none => find_levels B q rest (li + 1)) = _
    rw [scan_level_eq_spec q (h sub (List.mem_cons_self sub rest))]
    cases hscan : scan_spec B sub q with
    | some i => rfl
    | none =>
      show find_levels B q rest (li + 1) = _
      exact ih (li + 1) (fun s hs => h s (List.mem_cons_of_mem _ hs))

/-- C5: on every structurally well-formed table (in particular every
reachable one), the find procedure used by get, contains, delete and the
insert update check computes exactly the specification-side cascade
`find_spec`: levels in index order, probing `(h1 + a*h2) mod capacity`
for `a` from 0 below the level budget, hit on the first occupied
`strcmp`-equal slot, level abandoned at the first empty slot, tombstones
and foreign keys probed past, `none` as the not-found sentinel. -/
theorem C5_find_semantics (B : Nat → Nat → Nat) (t : ElasticHashTable)
    (q : List Nat) (hwf : StructWF t) :
    find_key B t q = find_spec B t q := by
  unfold find_key find_spec
  rw [show t.levels.enum = t.levels.enumFrom 0 from rfl]
  exact find_levels_eq_spec B q t.levels 0
    (fun sub hs => (hwf.1 sub hs).2.2.1)

/-- Witness for C5 at the one-entry table `t1s`, once with its present
key `[2]` and the claim theorem applied, once checking the concrete
values agree. -/
theorem C5_witness :
    find_key fullBudget t1s [2] = find_spec fullBudget t1s [2] ∧
    find_key fullBudget t1s [2] = some (0, 0) :=
  ⟨C5_find_semantics fullBudget t1s [2] t1s_wf.1, by decide⟩

end EHT
